import Mathlib

/-!
Verification of the locator resolver and failure-aggregation engine of the
`jk` Jenkins CLI (src/lib/jenkins/locator.ts and src/lib/jenkins/operations.ts).

Strings are modelled as `List Char`.  All recursion is structural (lists or
explicit fuel), so every definition evaluates by kernel reduction.
JavaScript built-ins used by the source (String.prototype.split/join/replace,
decodeURIComponent, encodeURIComponent, parseInt, template interpolation of a
number) are modelled explicitly below, with comments stating the semantics
being modelled.
-/

namespace JK

abbrev Chars := List Char

/-- Decimal digit test, `\d` of the source regexes. -/
def isDigitChar (c : Char) : Bool := '0' ≤ c && c ≤ '9'

/-- SAFE_PATH_SEGMENT_REGEX character class `[a-zA-Z0-9_.\- ]`
(locator.ts line 321: alphanumeric, underscore, dot, hyphen, space). -/
def isSafeChar (c : Char) : Bool :=
  ('a' ≤ c && c ≤ 'z') || ('A' ≤ c && c ≤ 'Z') || ('0' ≤ c && c ≤ '9') ||
  c = '_' || c = '.' || c = '-' || c = ' '

/-- JS `String.prototype.split("/")`: splits on every slash, keeping empty
pieces (`"a//b".split("/") = ["a","","b"]`, `"".split("/") = [""]`). -/
def splitOnSlash : Chars → List Chars
  | [] => [[]]
  | c :: t =>
    if c = '/' then [] :: splitOnSlash t
    else
      match splitOnSlash t with
      | [] => [[c]]
      | h :: r => (c :: h) :: r

/-- JS `Array.prototype.join("/")`. -/
def joinSlash (ps : List Chars) : Chars := (ps.intersperse ['/']).flatten

/-- Maximal leading run of decimal digits (what a greedy `(\d+)` captures at a
position; shrinking the run can never help these patterns because the
character after it would have to be `/`). -/
def digitRun (l : Chars) : Chars := l.takeWhile isDigitChar

/-- JS `parseInt(s, 10)` restricted to the all-digit strings produced by the
`(\d+)` capture groups. -/
def parseDec (l : Chars) : Nat := l.foldl (fun a c => 10 * a + (c.toNat - 48)) 0

/-- Decimal digits of a natural number, by fuel (the fuel `n+1` always
suffices); models JS template interpolation of the integer build number. -/
def natDigitsAux : Nat → Nat → Chars
  | 0, _ => []
  | fuel + 1, n =>
    if n < 10 then [Char.ofNat (48 + n)]
    else natDigitsAux fuel (n / 10) ++ [Char.ofNat (48 + n % 10)]

/-- Decimal representation of a natural number (`${buildNumber}` in the
source; build numbers are nonnegative integers produced by `parseInt`). -/
def natToChars (n : Nat) : Chars := natDigitsAux (n + 1) n

/-- Hexadecimal digit value (both cases), used by percent-escape decoding. -/
def hexVal (c : Char) : Option Nat :=
  if '0' ≤ c && c ≤ '9' then some (c.toNat - 48)
  else if 'A' ≤ c && c ≤ 'F' then some (c.toNat - 55)
  else if 'a' ≤ c && c ≤ 'f' then some (c.toNat - 87)
  else none

/-- Upper-case hex digits of a byte, as emitted by `encodeURIComponent`. -/
def hexDigit (n : Nat) : Char :=
  if n < 10 then Char.ofNat (48 + n) else Char.ofNat (55 + n)

def hexByte (b : Nat) : Chars := [hexDigit (b / 16), hexDigit (b % 16)]

/-- UTF-8 bytes of a code point (code points are `< 0x110000` by `Char`). -/
def utf8Bytes (n : Nat) : List Nat :=
  if n < 0x80 then [n]
  else if n < 0x800 then [0xC0 + n / 64, 0x80 + n % 64]
  else if n < 0x10000 then [0xE0 + n / 4096, 0x80 + n / 64 % 64, 0x80 + n % 64]
  else [0xF0 + n / 262144, 0x80 + n / 4096 % 64, 0x80 + n / 64 % 64, 0x80 + n % 64]

/-- `encodeURIComponent` leaves the unreserved characters
`A-Z a-z 0-9 - _ . ! ~ * ' ( )` alone and percent-encodes the UTF-8 bytes of
everything else. -/
def isUnreserved (c : Char) : Bool :=
  ('a' ≤ c && c ≤ 'z') || ('A' ≤ c && c ≤ 'Z') || ('0' ≤ c && c ≤ '9') ||
  c = '-' || c = '_' || c = '.' || c = '!' || c = '~' || c = '*' ||
  c = '\'' || c = '(' || c = ')'

/-- Model of JS `encodeURIComponent`. -/
def encodeURIComponent (l : Chars) : Chars :=
  l.flatMap fun c =>
    if isUnreserved c then [c]
    else (utf8Bytes c.toNat).flatMap fun b => '%' :: hexByte b

/-- State of the UTF-8 reassembly inside `decodeURIComponent`:
`(bytesSeen, continuationsLeft, accumulatedValue)`. -/
abbrev Utf8State := Option (Nat × Nat × Nat)

/-- Feed one decoded byte to the UTF-8 state machine.  Returns `none` on a
malformed byte sequence (where `decodeURIComponent` throws `URIError`),
otherwise the possibly emitted character and the next state. -/
def utf8Step (st : Utf8State) (b : Nat) : Option (Option Char × Utf8State) :=
  match st with
  | none =>
    if b < 0x80 then some (some (Char.ofNat b), none)
    else if 0xC2 ≤ b && b ≤ 0xDF then some (none, some (2, 1, b - 0xC0))
    else if 0xE0 ≤ b && b ≤ 0xEF then some (none, some (3, 2, b - 0xE0))
    else if 0xF0 ≤ b && b ≤ 0xF4 then some (none, some (4, 3, b - 0xF0))
    else none
  | some (len, k, acc) =>
    if 0x80 ≤ b && b ≤ 0xBF then
      let acc' := acc * 64 + (b - 0x80)
      match k with
      | 0 => none
      | 1 =>
        -- sequence complete: reject overlong forms, surrogates, > U+10FFFF
        if (len = 2 && 0x80 ≤ acc') ||
           (len = 3 && 0x800 ≤ acc' && ¬ (0xD800 ≤ acc' && acc' ≤ 0xDFFF)) ||
           (len = 4 && 0x10000 ≤ acc' && acc' ≤ 0x10FFFF) then
          some (some (Char.ofNat acc'), none)
        else none
      | k' + 1 => some (none, some (len, k', acc'))
    else none

/-- Model of JS `decodeURIComponent`: percent-escapes are decoded to bytes,
byte runs are reassembled as UTF-8; any malformed escape or byte sequence
makes the whole call throw (`none` here).  Characters other than `%` pass
through unchanged (and may not appear inside a byte sequence). -/
def uriDecodeAux : Utf8State → Chars → Option Chars
  | st, '%' :: h1 :: h2 :: rest =>
    match hexVal h1, hexVal h2 with
    | some a, some b =>
      match utf8Step st (16 * a + b) with
      | some (emitted, st') =>
        match uriDecodeAux st' rest with
        | some out => some (match emitted with | some c => c :: out | none => out)
        | none => none
      | none => none
    | _, _ => none
  | some _, _ => none      -- unfinished byte sequence followed by a non-escape
  | none, c :: rest =>
    if c = '%' then none   -- '%' without two hex digits
    else
      match uriDecodeAux none rest with
      | some out => some (c :: out)
      | none => none
  | none, [] => some []

/-- Model of JS `decodeURIComponent` on one path segment. -/
def decodeURIComponent (l : Chars) : Option Chars := uriDecodeAux none l

/-- Single-pass, non-overlapping, left-to-right replacement: the semantics of
JS `String.prototype.replace` with a global regex whose pattern is a literal.
The fuel (the string length) always suffices: each step consumes at least one
character. -/
def replaceAllAux (pat rep : Chars) : Nat → Chars → Chars
  | 0, l => l
  | fuel + 1, l =>
    match l with
    | [] => []
    | c :: t =>
      if pat ≠ [] && pat.isPrefixOf (c :: t) then
        rep ++ replaceAllAux pat rep fuel ((c :: t).drop pat.length)
      else c :: replaceAllAux pat rep fuel t

def replaceAll (pat rep l : Chars) : Chars := replaceAllAux pat rep l.length l

/-! ### The five locator regexes of locator.ts, as specialised matchers

Each JS regex is transcribed as a scanning function with the exact
backtracking semantics of the JS engine.  Backtracking inside a repetition
never succeeds for these patterns, because shrinking a greedy `[^/]+` or
`(\d+)` leaves a non-`/` character where the pattern next requires `/` (and
dropping a `(?:\/job\/[^/]+)` repetition leaves `j` where a digit is
required), so the only choice points that matter are the chunk boundaries of
the `([^/]+(?:\/[^/]+)*)` capture, tried longest-first.  An unanchored regex
matches at the leftmost position admitting a match; since every unanchored
pattern here starts with a literal, scanning positions that start with that
literal is equivalent to scanning every position. -/

/-- Repetitions `(?:\/job\/[^/]+)*` of JOB_URL_REGEX, greedy, on the
slash-split parts after the first captured segment.  `capRev` holds the parts
of the capture so far, in reverse. -/
def jobExtend (capRev : List Chars) : List Chars → List Chars × List Chars
  | jb :: p :: rest =>
    if jb = "job".data && p ≠ [] then jobExtend (p :: jb :: capRev) rest
    else (capRev, jb :: p :: rest)
  | rest => (capRev, rest)

/-- Try JOB_URL_REGEX = `\/job\/([^/]+(?:\/job\/[^/]+)*)\/(\d+)` at one
position, `l` being the text after the literal `/job/`.  Returns the raw
capture and the digit capture. -/
def jobAttempt (l : Chars) : Option (Chars × Chars) :=
  match splitOnSlash l with
  | [] => none
  | p1 :: rest =>
    if p1 = [] then none
    else
      match jobExtend [p1] rest with
      | (capRev, d :: _) =>
        if digitRun d ≠ [] then some (joinSlash capRev.reverse, digitRun d) else none
      | (_, []) => none

/-- Leftmost match of JOB_URL_REGEX (JS `String.prototype.match`). -/
def scanJob : Chars → Option (Chars × Chars)
  | [] => none
  | c :: t =>
    if "/job/".data.isPrefixOf (c :: t) then
      match jobAttempt ((c :: t).drop 5) with
      | some r => some r
      | none => scanJob t
    else scanJob t

/-- The `\/runs\/(\d+)` tail of PIPELINE_URL_REGEX, checked after a candidate
capture (`capRev`, reversed parts): the next part must be literally `runs`
and the part after it must start with a digit. -/
def runsCheck (capRev : List Chars) (rest : List Chars) : Option (Chars × Chars) :=
  match rest with
  | r :: d :: _ =>
    if r = "runs".data && capRev ≠ [] && digitRun d ≠ [] then
      some (joinSlash capRev.reverse, digitRun d)
    else none
  | _ => none

/-- Greedy capture `([^/]+(?:\/[^/]+)*)` of PIPELINE_URL_REGEX with
chunk-boundary backtracking, longest capture first. -/
def pipelineUrlTry (capRev : List Chars) : List Chars → Option (Chars × Chars)
  | [] => runsCheck capRev []
  | p :: rest =>
    if p = [] then runsCheck capRev ([] :: rest)
    else
      match pipelineUrlTry (p :: capRev) rest with
      | some r => some r
      | none => runsCheck capRev (p :: rest)

/-- Try PIPELINE_URL_REGEX = `\/pipelines\/([^/]+(?:\/[^/]+)*)\/runs\/(\d+)`
at one position, `l` being the text after the literal `/pipelines/`. -/
def pipelineUrlAttempt (l : Chars) : Option (Chars × Chars) :=
  match splitOnSlash l with
  | [] => none
  | p1 :: rest => if p1 = [] then none else pipelineUrlTry [p1] rest

/-- Leftmost match of PIPELINE_URL_REGEX. -/
def scanPipelineUrl : Chars → Option (Chars × Chars)
  | [] => none
  | c :: t =>
    if "/pipelines/".data.isPrefixOf (c :: t) then
      match pipelineUrlAttempt ((c :: t).drop 11) with
      | some r => some r
      | none => scanPipelineUrl t
    else scanPipelineUrl t

/-- The `\/detail\/[^/]+\/(\d+)\/pipeline\/(\d+)` tail of
PIPELINE_NODE_URL_REGEX after a candidate capture: a literal `detail` part, a
nonempty branch part, an all-digits build-number part (the following literal
`/` forbids trailing non-digits), a literal `pipeline` part, and a final part
starting with a digit (the trailing `(\d+)` is unanchored, so it takes the
maximal digit run and ignores the rest). -/
def detailCheck (capRev : List Chars) (rest : List Chars) :
    Option (Chars × Chars × Chars) :=
  match rest with
  | dt :: br :: num :: pl :: nid :: _ =>
    if dt = "detail".data && br ≠ [] && num ≠ [] && num.all isDigitChar &&
       pl = "pipeline".data && digitRun nid ≠ [] && capRev ≠ [] then
      some (joinSlash capRev.reverse, num, digitRun nid)
    else none
  | _ => none

/-- Greedy capture of PIPELINE_NODE_URL_REGEX with chunk-boundary
backtracking, longest capture first. -/
def nodeTry (capRev : List Chars) : List Chars → Option (Chars × Chars × Chars)
  | [] => detailCheck capRev []
  | p :: rest =>
    if p = [] then detailCheck capRev ([] :: rest)
    else
      match nodeTry (p :: capRev) rest with
      | some r => some r
      | none => detailCheck capRev (p :: rest)

/-- Try PIPELINE_NODE_URL_REGEX at one position, `l` being the text after the
literal `/pipelines/`. -/
def nodeAttempt (l : Chars) : Option (Chars × Chars × Chars) :=
  match splitOnSlash l with
  | [] => none
  | p1 :: rest => if p1 = [] then none else nodeTry [p1] rest

/-- Leftmost match of PIPELINE_NODE_URL_REGEX. -/
def scanNode : Chars → Option (Chars × Chars × Chars)
  | [] => none
  | c :: t =>
    if "/pipelines/".data.isPrefixOf (c :: t) then
      match nodeAttempt ((c :: t).drop 11) with
      | some r => some r
      | none => scanNode t
    else scanNode t

/-- PIPELINE_PATH_REGEX = `^pipelines\/([^/]+(?:\/[^/]+)*)\/(\d+)$`.  The
trailing `(\d+)$` admits exactly one split point (the last slash), so the
match is the capture `parts[1..m-1]` with an all-digits last part. -/
def pipelinePathMatch (l : Chars) : Option (Chars × Chars) :=
  match splitOnSlash l with
  | root :: parts =>
    if root = "pipelines".data then
      match parts.reverse with
      | num :: capRev =>
        if num ≠ [] && num.all isDigitChar && capRev ≠ [] && capRev.all (· ≠ []) then
          some (joinSlash capRev.reverse, num)
        else none
      | [] => none
    else none
  | [] => none

/-- PIPELINE_PATH_WITH_RUNS_REGEX =
`^pipelines\/([^/]+(?:\/[^/]+)*)\/runs\/(\d+)$`.  The `\/runs\/(\d+)$` tail
likewise admits exactly one split point. -/
def pipelineRunsMatch (l : Chars) : Option (Chars × Chars) :=
  match splitOnSlash l with
  | root :: parts =>
    if root = "pipelines".data then
      match parts.reverse with
      | num :: r :: capRev =>
        if r = "runs".data && num ≠ [] && num.all isDigitChar && capRev ≠ [] &&
           capRev.all (· ≠ []) then
          some (joinSlash capRev.reverse, num)
        else none
      | _ => none
    else none
  | [] => none

/-! ### locator.ts -/

/-- A pipeline path plus build number (schemas.ts `PipelineInfo`). -/
structure PipelineInfo where
  path : String
  buildNumber : Nat
deriving Repr, DecidableEq

/-- errors.ts `InvalidLocatorError`. -/
structure InvalidLocatorError where
  message : String
  locator : String
deriving Repr, DecidableEq

/-- `decodePath`: split on `/`, `decodeURIComponent` each segment keeping it
verbatim when decoding throws, rejoin. -/
def decodeSegment (s : Chars) : Chars := (decodeURIComponent s).getD s

def decodePath (l : Chars) : Chars := joinSlash ((splitOnSlash l).map decodeSegment)

/-- `encodePath`: split on `/`, `encodeURIComponent` each segment, rejoin. -/
def encodePath (l : Chars) : Chars := joinSlash ((splitOnSlash l).map encodeURIComponent)

/-- `validatePipelinePath`: every nonempty segment matches
SAFE_PATH_SEGMENT_REGEX and is neither `.` nor `..`; at least one segment. -/
def validatePipelinePath (l : Chars) : Bool :=
  let segments := (splitOnSlash l).filter (· ≠ [])
  segments.all (fun seg => seg.all isSafeChar && seg ≠ ".".data && seg ≠ "..".data) &&
    segments ≠ []

def invalidCharsMsg : String :=
  "Pipeline path contains invalid characters. Only alphanumeric, underscore, hyphen, dot, and space are allowed."

def noMatchMsg : String :=
  "Invalid locator format. Expected one of:\n  - Jenkins URL: https://jenkins.example.com/job/MyProject/123/\n  - Pipeline URL: https://jenkins.example.com/.../pipelines/MyProject/runs/123\n  - Pipeline path: pipelines/MyProject/123\n  - Pipeline path with runs: pipelines/MyProject/runs/123"

def nodeNoMatchMsg : String :=
  "Invalid node URL format. Expected Blue Ocean pipeline node URL like:\n  https://jenkins.example.com/blue/.../pipelines/Project/Branch/detail/Branch/BuildNumber/pipeline/NodeId"

/-- The validate-then-return tail every `parseLocator` branch repeats
verbatim (locator.ts lines 380-393 and its three copies). -/
def finishBranch (locator : String) (pipelinePath num : Chars) :
    Except InvalidLocatorError PipelineInfo :=
  if validatePipelinePath pipelinePath then .ok ⟨⟨pipelinePath⟩, parseDec num⟩
  else .error ⟨invalidCharsMsg, locator⟩

/-- `parseLocator` (locator.ts lines 369-476): the four formats tried in
order; each branch percent-decodes the capture, normalises it, validates it,
and either succeeds or fails with `InvalidLocatorError`. -/
def parseLocator (locator : String) : Except InvalidLocatorError PipelineInfo :=
  match scanJob locator.data with
  | some (cap, num) =>
    finishBranch locator
      ("pipelines/".data ++ replaceAll "/job/".data ['/'] (decodePath cap)) num
  | none =>
  match scanPipelineUrl locator.data with
  | some (cap, num) =>
    finishBranch locator
      ("pipelines/".data ++ replaceAll "/pipelines/".data ['/'] (decodePath cap)) num
  | none =>
  match pipelineRunsMatch locator.data with
  | some (cap, num) => finishBranch locator ("pipelines/".data ++ decodePath cap) num
  | none =>
  match pipelinePathMatch locator.data with
  | some (cap, num) => finishBranch locator ("pipelines/".data ++ decodePath cap) num
  | none => .error ⟨noMatchMsg, locator⟩

/-- `buildNodesApiPath`. -/
def buildNodesApiPath (p : PipelineInfo) : String :=
  "/blue/rest/organizations/jenkins/" ++ (⟨encodePath p.path.data⟩ : String) ++
    "/runs/" ++ (⟨natToChars p.buildNumber⟩ : String) ++ "/nodes/"

/-- `buildNodeConsoleApiPath`. -/
def buildNodeConsoleApiPath (p : PipelineInfo) (nodeId : String) : String :=
  "/blue/rest/organizations/jenkins/" ++ (⟨encodePath p.path.data⟩ : String) ++
    "/runs/" ++ (⟨natToChars p.buildNumber⟩ : String) ++ "/nodes/" ++ nodeId ++ "/log/"

/-- `baseUrl.replace(/\/$/, "")`: drop one trailing slash. -/
def stripTrailingSlash (l : Chars) : Chars :=
  if l.getLast? = some '/' then l.dropLast else l

/-- `buildWebUrl`. -/
def buildWebUrl (jenkinsBaseUrl : String) (p : PipelineInfo) : String :=
  let lastSeg := ((splitOnSlash p.path.data).getLast?).getD []
  (⟨stripTrailingSlash jenkinsBaseUrl.data⟩ : String) ++ "/blue/organizations/jenkins/" ++
    (⟨encodePath p.path.data⟩ : String) ++ "/detail/" ++
    (⟨encodeURIComponent lastSeg⟩ : String) ++ "/" ++
    (⟨natToChars p.buildNumber⟩ : String) ++ "/"

/-- `buildNodeWebUrl`. -/
def buildNodeWebUrl (jenkinsBaseUrl : String) (p : PipelineInfo) (nodeId : String) : String :=
  buildWebUrl jenkinsBaseUrl p ++ "pipeline/" ++ nodeId

/-- Result of `parseNodeUrl`. -/
structure NodeLocator where
  pipelineInfo : PipelineInfo
  nodeId : String
deriving Repr, DecidableEq

/-- The validate-then-return tail of `parseNodeUrl`. -/
def finishNodeBranch (url : String) (pipelinePath num nid : Chars) :
    Except InvalidLocatorError NodeLocator :=
  if validatePipelinePath pipelinePath then
    .ok ⟨⟨⟨pipelinePath⟩, parseDec num⟩, ⟨nid⟩⟩
  else .error ⟨invalidCharsMsg, url⟩

/-- `parseNodeUrl` (locator.ts lines 604-645). -/
def parseNodeUrl (url : String) : Except InvalidLocatorError NodeLocator :=
  match scanNode url.data with
  | none => .error ⟨nodeNoMatchMsg, url⟩
  | some (cap, num, nid) =>
    finishNodeBranch url
      ("pipelines/".data ++ replaceAll "/pipelines/".data ['/'] (decodePath cap)) num nid

/-! ### operations.ts -/

/-- schemas.ts `BuildResultSchema`. -/
inductive BuildResult
  | SUCCESS | FAILURE | UNSTABLE | ABORTED | NOT_BUILT | UNKNOWN
deriving Repr, DecidableEq

/-- schemas.ts `ActionLinkSchema` (only the `href` field is consumed). -/
structure ActionLink where
  href : Option String
deriving Repr, DecidableEq

/-- schemas.ts `ActionSchema` (only the `link` field is consumed). -/
structure Action where
  link : Option ActionLink
deriving Repr, DecidableEq

/-- schemas.ts `BuildNodeSchema`, restricted to the fields operations.ts
reads (`state`, `startTime`, `durationInMillis` are never consumed there). -/
structure BuildNode where
  id : String
  displayName : String
  result : Option BuildResult
  actions : List Action
deriving Repr, DecidableEq

/-- schemas.ts `FailureReportSchema`. -/
structure FailureReport where
  pipeline : String
  buildNumber : Nat
  nodeId : String
  displayName : String
  result : BuildResult
  url : String
  consoleOutput : Option String
deriving Repr, DecidableEq

/-- The error kinds of errors.ts reaching the failure-report operations. -/
inductive JenkinsError
  | networkError (statusCode : Option Nat)
  | authenticationError
  | validationError
  | buildNotFoundError (pipeline : String) (buildNumber : Nat)
  | invalidLocatorError (e : InvalidLocatorError)
deriving Repr, DecidableEq

/-- The error channel of the HTTP client (client.ts): `makeRequest` yields
`NetworkError` (with the HTTP status for non-ok responses) or
`AuthenticationError` (401/403), and `getValidated` adds `ValidationError`
for schema failures.  `BuildNotFoundError` is not a client error; it only
arises from the 404 mapping in operations.ts. -/
inductive ClientError
  | network (statusCode : Option Nat)
  | auth
  | validation
deriving Repr, DecidableEq

def ClientError.toJenkins : ClientError → JenkinsError
  | .network s => .networkError s
  | .auth => .authenticationError
  | .validation => .validationError

/-- Modelled from the spec: the injected `Fetcher` collaborator of spec
sections 4.2 and 6 (the HTTP client of client.ts plus the CI server behind
it, which is outside the repository).  The server holds finitely many
builds; a request for a coordinate (or console log) not present answers
HTTP 404, which client.ts surfaces as `NetworkError` with `statusCode 404`;
401/403 become `AuthenticationError`, schema failures `ValidationError`,
transport failures `NetworkError` without a status. -/
structure Fetcher where
  steps : List ((String × Nat) × Except ClientError (List BuildNode))
  console : List ((String × Nat × String) × Except ClientError String)

/-- The step-list request `client.getValidated(buildNodesApiPath(p), ...)`. -/
def fetchStepListRaw (f : Fetcher) (p : PipelineInfo) :
    Except ClientError (List BuildNode) :=
  match f.steps.find? (fun e => e.1.1 = p.path && e.1.2 = p.buildNumber) with
  | some e => e.2
  | none => .error (.network (some 404))

/-- The console request `client.getText(buildNodeConsoleApiPath(p, id))`. -/
def fetchConsoleText (f : Fetcher) (p : PipelineInfo) (nodeId : String) :
    Except ClientError String :=
  match f.console.find?
      (fun e => e.1.1 = p.path && e.1.2.1 = p.buildNumber && e.1.2.2 = nodeId) with
  | some e => e.2
  | none => .error (.network (some 404))

/-- operations.ts lines 279-291: a client `NetworkError` with
`statusCode === 404` becomes `BuildNotFoundError` carrying the coordinate;
every other client error passes through unchanged. -/
def map404ToBuildNotFound (p : PipelineInfo) : ClientError → JenkinsError
  | .network (some 404) => .buildNotFoundError p.path p.buildNumber
  | e => e.toJenkins

/-- The VisitedSet key `path + "/" + buildNumber`. -/
def buildKey (p : PipelineInfo) : String :=
  p.path ++ "/" ++ (⟨natToChars p.buildNumber⟩ : String)

/-- First-occurrence deduplication by key (operations.ts lines 389-396). -/
def dedupByKeyAux (seen : List String) : List PipelineInfo → List PipelineInfo
  | [] => []
  | p :: ps =>
    if seen.contains (buildKey p) then dedupByKeyAux seen ps
    else p :: dedupByKeyAux (buildKey p :: seen) ps

/-- `extractSubBuildLinks`: every action link `href` of every node (the JS
truthiness test `action.link?.href` skips absent and empty hrefs), parsed
through `parseLocator` with parse failures discarded, deduplicated by key. -/
def extractSubBuildLinks (ns : List BuildNode) : List PipelineInfo :=
  let hrefs := ns.flatMap fun n =>
    n.actions.filterMap fun a =>
      match a.link with
      | some link =>
        match link.href with
        | some h => if h = "" then none else some h
        | none => none
      | none => none
  dedupByKeyAux [] (hrefs.filterMap fun h => (parseLocator h).toOption)

/-- Nodes with `result === "FAILURE"`. -/
def failedOf (ns : List BuildNode) : List BuildNode :=
  ns.filter (fun n => n.result == some .FAILURE)

/-- One `FailureReport` for a failed node (`node.result!` is FAILURE for
every node passing the filter). -/
def mkReport (baseUrl : String) (p : PipelineInfo) (n : BuildNode)
    (co : Option String) : FailureReport :=
  { pipeline := p.path, buildNumber := p.buildNumber, nodeId := n.id,
    displayName := n.displayName, result := .FAILURE,
    url := buildNodeWebUrl baseUrl p n.id, consoleOutput := co }

/-- The per-build record assembly (`Effect.all` over the failed nodes,
sequential and fail-fast): with `includeFull` each failed node's console text
is fetched first.  The first component is ghost instrumentation recording the
console requests issued, keyed by `(path, buildNumber)` and node id; it does
not influence the computed value. -/
def currentFailuresAux (f : Fetcher) (baseUrl : String) (inc : Bool)
    (p : PipelineInfo) :
    List BuildNode → List ((String × Nat) × String) × Except JenkinsError (List FailureReport)
  | [] => ([], .ok [])
  | n :: rest =>
    if inc then
      match fetchConsoleText f p n.id with
      | .error e => ([((p.path, p.buildNumber), n.id)], .error e.toJenkins)
      | .ok txt =>
        match currentFailuresAux f baseUrl inc p rest with
        | (log, .error e) => (((p.path, p.buildNumber), n.id) :: log, .error e)
        | (log, .ok rs) =>
          (((p.path, p.buildNumber), n.id) :: log,
            .ok (mkReport baseUrl p n (some txt) :: rs))
    else
      match currentFailuresAux f baseUrl inc p rest with
      | (log, .error e) => (log, .error e)
      | (log, .ok rs) => (log, .ok (mkReport baseUrl p n none :: rs))

/-- Call-scoped traversal state: the VisitedSet, plus two ghost fields that
only record what happened (the coordinates that passed the visited check in
processing order, and the console requests issued). -/
structure TraceState where
  visited : List String
  processed : List PipelineInfo
  consoleLog : List ((String × Nat) × String)
deriving Repr, DecidableEq

def emptyTrace : TraceState := ⟨[], [], []⟩

/-- The `Effect.all` over the recursive sub-build calls (operations.ts lines
328-349): sequential, each wrapped in
`Effect.catchTag("BuildNotFoundError", () => Effect.succeed([]))`, results
flattened; any other error is fail-fast.  `none` = out of fuel. -/
def childrenFold
    (run : PipelineInfo → TraceState → Option (TraceState × Except JenkinsError (List FailureReport))) :
    List PipelineInfo → TraceState → Option (TraceState × Except JenkinsError (List FailureReport))
  | [], st => some (st, .ok [])
  | c :: cs, st =>
    match run c st with
    | none => none
    | some (st', .error (.buildNotFoundError _ _)) => childrenFold run cs st'
    | some (st', .error e) => some (st', .error e)
    | some (st', .ok rs) =>
      match childrenFold run cs st' with
      | none => none
      | some (st'', .error e) => some (st'', .error e)
      | some (st'', .ok rss) => some (st'', .ok (rs ++ rss))

/-- One unfolding of `buildFailureReportRecursive` (operations.ts lines
256-358), parametrised by the function used for the recursive sub-build
calls: visited check and insertion, step-list fetch with the 404 mapping,
current-level records, then the sub-build recursion. -/
def goStep (f : Fetcher) (baseUrl : String) (inc : Bool)
    (recurse : PipelineInfo → TraceState → Option (TraceState × Except JenkinsError (List FailureReport)))
    (p : PipelineInfo) (st : TraceState) :
    Option (TraceState × Except JenkinsError (List FailureReport)) :=
  if st.visited.contains (buildKey p) then some (st, .ok [])
  else
    let st1 : TraceState :=
      ⟨st.visited ++ [buildKey p], st.processed ++ [p], st.consoleLog⟩
    match (fetchStepListRaw f p).mapError (map404ToBuildNotFound p) with
    | .error e => some (st1, .error e)
    | .ok nodes =>
      match currentFailuresAux f baseUrl inc p (failedOf nodes) with
      | (clog, current) =>
        let st2 : TraceState := ⟨st1.visited, st1.processed, st1.consoleLog ++ clog⟩
        match current with
        | .error e => some (st2, .error e)
        | .ok currentRecs =>
          match childrenFold recurse (extractSubBuildLinks nodes) st2 with
          | none => none
          | some (st3, .error e) => some (st3, .error e)
          | some (st3, .ok subRecs) => some (st3, .ok (currentRecs ++ subRecs))

/-- `buildFailureReportRecursive`, with explicit fuel (`none` = fuel
exhausted; the theorems show any fuel above the number of candidate keys
suffices). -/
def buildFailureReportRec (f : Fetcher) (baseUrl : String) (inc : Bool) :
    Nat → PipelineInfo → TraceState → Option (TraceState × Except JenkinsError (List FailureReport))
  | 0 => fun _ _ => none
  | fuel + 1 => goStep f baseUrl inc (buildFailureReportRec f baseUrl inc fuel)

/-- `buildFailureReport` (operations.ts lines 203-251): the shallow variant.
Note it applies no 404 mapping to the step-list fetch.  First component is
the ghost console-request log. -/
def buildFailureReport (f : Fetcher) (baseUrl : String) (p : PipelineInfo)
    (inc : Bool) :
    List ((String × Nat) × String) × Except JenkinsError (List FailureReport) :=
  match fetchStepListRaw f p with
  | .error e => ([], .error e.toJenkins)
  | .ok nodes => currentFailuresAux f baseUrl inc p (failedOf nodes)

/-- `getFailureReport` of `createBuildOperations`. -/
def getFailureReport (f : Fetcher) (baseUrl : String) (locator : String)
    (inc : Bool) : Except JenkinsError (List FailureReport) :=
  match parseLocator locator with
  | .error e => .error (.invalidLocatorError e)
  | .ok p => (buildFailureReport f baseUrl p inc).2

/-- `getFailureReportRecursive` of `createBuildOperations`. -/
def getFailureReportRecursive (f : Fetcher) (baseUrl : String)
    (locator : String) (inc : Bool) (fuel : Nat) :
    Option (TraceState × Except JenkinsError (List FailureReport)) :=
  match parseLocator locator with
  | .error e => some (emptyTrace, .error (.invalidLocatorError e))
  | .ok p => buildFailureReportRec f baseUrl inc fuel p emptyTrace

/-- The records one processed build contributes (empty when its fetch or one
of its console fetches fails). -/
def recordsOf (f : Fetcher) (baseUrl : String) (inc : Bool)
    (p : PipelineInfo) : List FailureReport :=
  match fetchStepListRaw f p with
  | .error _ => []
  | .ok nodes =>
    match (currentFailuresAux f baseUrl inc p (failedOf nodes)).2 with
    | .error _ => []
    | .ok rs => rs

/-- The console requests one processed build issues when `includeFull` and
everything succeeds. -/
def consoleCallsOf (f : Fetcher) (p : PipelineInfo) : List ((String × Nat) × String) :=
  match fetchStepListRaw f p with
  | .error _ => []
  | .ok nodes => (failedOf nodes).map fun n => ((p.path, p.buildNumber), n.id)

/-- Every key a recursive traversal over `f` starting at `p` can ever add to
the VisitedSet: the start key and the keys of all sub-build links occurring
anywhere in the server's responses. -/
def linkKeys (f : Fetcher) : List String :=
  f.steps.flatMap fun e =>
    match e.2 with
    | .ok ns => (extractSubBuildLinks ns).map buildKey
    | .error _ => []

def universeKeys (f : Fetcher) (p : PipelineInfo) : List String :=
  buildKey p :: linkKeys f

/-- Characterisation of one engine call from state `st` to state `st'` with
result `res`: the call processed some fresh, duplicate-free list `dp` of
coordinates, appended exactly their keys to the VisitedSet (in lockstep with
the processed log); on success the records are exactly the per-build records
of `dp` in processing order and the console requests are exactly the
per-build failed-step requests when `includeFull`; a `BuildNotFoundError`
result arises only from a fetch that produced no records. -/
def goChar (f : Fetcher) (baseUrl : String) (inc : Bool) (st st' : TraceState)
    (res : Except JenkinsError (List FailureReport)) : Prop :=
  ∃ dp : List PipelineInfo,
    st'.visited = st.visited ++ dp.map buildKey ∧
    st'.processed = st.processed ++ dp ∧
    (dp.map buildKey).Nodup ∧
    (∀ k ∈ dp.map buildKey, st.visited.contains k = false) ∧
    (∀ rs, res = .ok rs →
      rs = dp.flatMap (recordsOf f baseUrl inc) ∧
      st'.consoleLog = st.consoleLog ++
        (if inc then dp.flatMap (consoleCallsOf f) else [])) ∧
    (∀ pl n, res = .error (.buildNotFoundError pl n) →
      dp.flatMap (recordsOf f baseUrl inc) = [] ∧
      st'.consoleLog = st.consoleLog ++
        (if inc then dp.flatMap (consoleCallsOf f) else []))

/-- Number of keys of `U` not yet in the VisitedSet: the termination
measure of the recursive traversal. -/
def freshCount (U : List String) (st : TraceState) : Nat :=
  (U.filter (fun k => !(st.visited.contains k))).length

/-- `U` contains the keys of all sub-build links occurring in the server's
responses. -/
def linkClosed (f : Fetcher) (U : List String) : Prop :=
  ∀ e ∈ f.steps, ∀ ns, e.2 = .ok ns → ∀ c ∈ extractSubBuildLinks ns, buildKey c ∈ U

/-- Completeness of one engine call from `st` to `st'`: when the call ends in
success or in the caught `BuildNotFoundError`, every sub-build link of every
newly processed build with a fetchable step list has its key in the final
VisitedSet — so, starting from the empty state, every build reachable through
link chains is visited. -/
def linksDone (f : Fetcher) (st st' : TraceState)
    (res : Except JenkinsError (List FailureReport)) : Prop :=
  (res.isOk = true ∨ ∃ pl n, res = .error (.buildNotFoundError pl n)) →
  ∀ dp, st'.processed = st.processed ++ dp →
    ∀ q ∈ dp, ∀ ns, fetchStepListRaw f q = .ok ns →
      ∀ c ∈ extractSubBuildLinks ns, st'.visited.contains (buildKey c) = true

instance {ε α : Type} [DecidableEq ε] [DecidableEq α] : DecidableEq (Except ε α) :=
  fun x y =>
    match x, y with
    | .ok a, .ok b => if h : a = b then isTrue (by rw [h]) else isFalse (by simp [h])
    | .error a, .error b => if h : a = b then isTrue (by rw [h]) else isFalse (by simp [h])
    | .ok _, .error _ => isFalse (by simp)
    | .error _, .ok _ => isFalse (by simp)

/-! ### Concrete fixtures used by individual claims -/

/-- An action carrying a sub-build link. -/
def linkAction (h : String) : Action := ⟨some ⟨some h⟩⟩

/-- A failed node in build `pipelines/A #1` linking to `pipelines/B #2`. -/
def cxParentNode : BuildNode :=
  ⟨"5", "Run Tests", some .FAILURE, [linkAction "pipelines/B/2"]⟩

/-- Server where the linked sub-build answers 401/403. -/
def cxAuthFetcher : Fetcher :=
  ⟨[(("pipelines/A", 1), .ok [cxParentNode]),
    (("pipelines/B", 2), .error .auth)], []⟩

/-- Server where the linked sub-build is absent (404). -/
def cxMissingFetcher : Fetcher :=
  ⟨[(("pipelines/A", 1), .ok [cxParentNode])], []⟩

/-- A failed leaf node without links. -/
def cxLeafNode : BuildNode := ⟨"1", "Sub Step", some .FAILURE, []⟩

/-- A successful node that only carries a sub-build link. -/
def cxLinkOnlyNode : BuildNode := ⟨"5", "Trigger", some .SUCCESS, [linkAction "pipelines/B/2"]⟩

/-- Server where the only sub-build link answers 401/403 and the parent has
no failed steps of its own. -/
def cxAuthFetcher2 : Fetcher :=
  ⟨[(("pipelines/A", 1), .ok [cxLinkOnlyNode]),
    (("pipelines/B", 2), .error .auth)], []⟩

/-- A failed parent node linking to one pruned and one healthy sub-build. -/
def cxMixParent : BuildNode :=
  ⟨"5", "Run Tests", some .FAILURE, [linkAction "pipelines/M/7", linkAction "pipelines/B/2"]⟩

/-- Server where sub-build `pipelines/M #7` has been pruned (404) and
sub-build `pipelines/B #2` is healthy with one failure. -/
def cxMixFetcher : Fetcher :=
  ⟨[(("pipelines/A", 1), .ok [cxMixParent]),
    (("pipelines/B", 2), .ok [cxLeafNode])], []⟩

/-- Cyclic server: `pipelines/A #1` links to `pipelines/B #2` which links
back to `pipelines/A #1`; one real failure in each build. -/
def cxCycleFetcher : Fetcher :=
  ⟨[(("pipelines/A", 1), .ok [cxParentNode]),
    (("pipelines/B", 2), .ok [⟨"1", "Sub Step", some .FAILURE, [linkAction "pipelines/A/1"]⟩])],
   [(("pipelines/A", 1, "5"), .ok "boom"), (("pipelines/B", 2, "1"), .ok "subboom")]⟩

/-- The completed traversal state of the cyclic server (console capture on):
each build visited and processed once, one console request per failed step. -/
def cxCycleState : TraceState :=
  ⟨["pipelines/A/1", "pipelines/B/2"],
   [⟨"pipelines/A", 1⟩, ⟨"pipelines/B", 2⟩],
   [(("pipelines/A", 1), "5"), (("pipelines/B", 2), "1")]⟩

/-- The records of the cyclic traversal: one per build, console text included. -/
def cxCycleRecords : List FailureReport :=
  [⟨"pipelines/A", 1, "5", "Run Tests", .FAILURE,
    "https://j/blue/organizations/jenkins/pipelines/A/detail/A/1/pipeline/5", some "boom"⟩,
   ⟨"pipelines/B", 2, "1", "Sub Step", .FAILURE,
    "https://j/blue/organizations/jenkins/pipelines/B/detail/B/2/pipeline/1", some "subboom"⟩]

/-! ## Shared lemmas -/

theorem finishBranch_ok {loc : String} {pp num : Chars} {c : PipelineInfo}
    (h : finishBranch loc pp num = .ok c) :
    validatePipelinePath c.path.data = true := by
  unfold finishBranch at h
  split at h
  next hval => cases h; exact hval
  next => cases h

theorem finishBranch_err {loc : String} {pp num : Chars} {e : InvalidLocatorError}
    (h : finishBranch loc pp num = .error e) : e.locator = loc := by
  unfold finishBranch at h
  split at h
  next => cases h
  next => cases h; rfl

theorem finishNodeBranch_ok {url : String} {pp num nid : Chars} {r : NodeLocator}
    (h : finishNodeBranch url pp num nid = .ok r) :
    validatePipelinePath r.pipelineInfo.path.data = true := by
  unfold finishNodeBranch at h
  split at h
  next hval => cases h; exact hval
  next => cases h

theorem finishNodeBranch_err {url : String} {pp num nid : Chars} {e : InvalidLocatorError}
    (h : finishNodeBranch url pp num nid = .error e) : e.locator = url := by
  unfold finishNodeBranch at h
  split at h
  next => cases h
  next => cases h; rfl

theorem digitRun_all (l : Chars) : (digitRun l).all isDigitChar = true := by
  induction l with
  | nil => rfl
  | cons c t ih =>
    simp only [digitRun, List.takeWhile_cons] at *
    split
    · simp_all
    · rfl

theorem detailCheck_nodeId {capRev rest c m nid}
    (h : detailCheck capRev rest = some (c, m, nid)) :
    nid ≠ [] ∧ nid.all isDigitChar = true := by
  unfold detailCheck at h
  split at h
  · split at h
    next hg =>
      cases h
      simp only [Bool.and_eq_true, decide_eq_true_eq] at hg
      refine ⟨?_, digitRun_all _⟩
      tauto
    next => cases h
  · cases h

theorem nodeTry_nodeId :
    ∀ (rest capRev : List Chars) {c m nid : Chars},
      nodeTry capRev rest = some (c, m, nid) →
      nid ≠ [] ∧ nid.all isDigitChar = true := by
  intro rest
  induction rest with
  | nil =>
    intro capRev c m nid h
    exact detailCheck_nodeId (by simpa [nodeTry] using h)
  | cons p rest ih =>
    intro capRev c m nid h
    unfold nodeTry at h
    split at h
    · exact detailCheck_nodeId h
    · split at h
      next r heq => cases h; exact ih _ heq
      next => exact detailCheck_nodeId h

theorem nodeAttempt_nodeId {l : Chars} {c m nid : Chars}
    (h : nodeAttempt l = some (c, m, nid)) :
    nid ≠ [] ∧ nid.all isDigitChar = true := by
  unfold nodeAttempt at h
  split at h
  · cases h
  · split at h
    · cases h
    · exact nodeTry_nodeId _ _ h

theorem scanNode_nodeId :
    ∀ (l : Chars) {c m nid : Chars},
      scanNode l = some (c, m, nid) → nid ≠ [] ∧ nid.all isDigitChar = true := by
  intro l
  induction l with
  | nil => intro c m nid h; cases h
  | cons x t ih =>
    intro c m nid h
    unfold scanNode at h
    split at h
    · split at h
      next r heq => cases h; exact nodeAttempt_nodeId heq
      next => exact ih h
    · exact ih h

theorem toJenkins_ne_bnf (ce : ClientError) (pl : String) (n : Nat) :
    ce.toJenkins ≠ .buildNotFoundError pl n := by
  cases ce <;> simp [ClientError.toJenkins]

theorem contains_append {α : Type} [BEq α] (l1 l2 : List α) (a : α) :
    (l1 ++ l2).contains a = (l1.contains a || l2.contains a) := by
  induction l1 with
  | nil => simp
  | cons x t ih => simp [List.contains_cons, ih, Bool.or_assoc]

/-- One step of the engine, visited case. -/
theorem go_step_visited {f : Fetcher} {baseUrl : String} {inc : Bool}
    {fuel : Nat} {p : PipelineInfo} {st : TraceState}
    (hv : st.visited.contains (buildKey p) = true) :
    buildFailureReportRec f baseUrl inc (fuel + 1) p st = some (st, .ok []) := by
  show goStep f baseUrl inc (buildFailureReportRec f baseUrl inc fuel) p st = _
  unfold goStep
  rw [hv]
  rfl

/-- One step of the engine, fetch-error case. -/
theorem go_step_fetch_error {f : Fetcher} {baseUrl : String} {inc : Bool}
    {fuel : Nat} {p : PipelineInfo} {st : TraceState} {e : ClientError}
    (hv : st.visited.contains (buildKey p) = false)
    (hf : fetchStepListRaw f p = .error e) :
    buildFailureReportRec f baseUrl inc (fuel + 1) p st
      = some (⟨st.visited ++ [buildKey p], st.processed ++ [p], st.consoleLog⟩,
          .error (map404ToBuildNotFound p e)) := by
  show goStep f baseUrl inc (buildFailureReportRec f baseUrl inc fuel) p st = _
  unfold goStep
  rw [hv, if_neg (by simp), hf]
  rfl

/-- One step of the engine, fetch-ok case: the result is the current-level
record assembly followed by the sub-build fold. -/
theorem go_step_ok {f : Fetcher} {baseUrl : String} {inc : Bool}
    {fuel : Nat} {p : PipelineInfo} {st : TraceState} {ns : List BuildNode}
    (hv : st.visited.contains (buildKey p) = false)
    (hf : fetchStepListRaw f p = .ok ns) :
    buildFailureReportRec f baseUrl inc (fuel + 1) p st
      = match currentFailuresAux f baseUrl inc p (failedOf ns) with
        | (clog, .error e) =>
          some (⟨st.visited ++ [buildKey p], st.processed ++ [p],
                 st.consoleLog ++ clog⟩, .error e)
        | (clog, .ok cur) =>
          match childrenFold (buildFailureReportRec f baseUrl inc fuel)
              (extractSubBuildLinks ns)
              ⟨st.visited ++ [buildKey p], st.processed ++ [p],
               st.consoleLog ++ clog⟩ with
          | none => none
          | some (st3, .error e) => some (st3, .error e)
          | some (st3, .ok subRecs) => some (st3, .ok (cur ++ subRecs)) := by
  show goStep f baseUrl inc (buildFailureReportRec f baseUrl inc fuel) p st = _
  unfold goStep
  rw [hv, if_neg (by simp), hf]
  simp only [Except.mapError]
  cases hc : currentFailuresAux f baseUrl inc p (failedOf ns) with
  | mk clog current => cases current <;> rfl

/-- The sub-build fold over a single child whose call fails with an error
other than `BuildNotFoundError` propagates that error. -/
theorem childrenFold_single_error {run : PipelineInfo → TraceState →
      Option (TraceState × Except JenkinsError (List FailureReport))}
    {c : PipelineInfo} {st st' : TraceState} {e : JenkinsError}
    (hne : ∀ pl n, e ≠ .buildNotFoundError pl n)
    (h : run c st = some (st', .error e)) :
    childrenFold run [c] st = some (st', .error e) := by
  unfold childrenFold
  rw [h]
  cases e with
  | buildNotFoundError pl n => exact absurd rfl (hne pl n)
  | networkError s => rfl
  | authenticationError => rfl
  | validationError => rfl
  | invalidLocatorError e0 => rfl

theorem map404_eq_toJenkins {p : PipelineInfo} {e : ClientError}
    (h : e ≠ .network (some 404)) : map404ToBuildNotFound p e = e.toJenkins := by
  unfold map404ToBuildNotFound
  split
  · exact absurd rfl h
  · rfl

theorem dedupByKeyAux_nodup :
    ∀ (l : List PipelineInfo) (seen : List String),
      ((dedupByKeyAux seen l).map buildKey).Nodup ∧
      ∀ k ∈ (dedupByKeyAux seen l).map buildKey, seen.contains k = false := by
  intro l
  induction l with
  | nil => intro seen; simp [dedupByKeyAux]
  | cons p ps ih =>
    intro seen
    unfold dedupByKeyAux
    split
    next hseen => exact ih seen
    next hseen =>
      obtain ⟨ihn, ihf⟩ := ih (buildKey p :: seen)
      have hnotin : buildKey p ∉ (dedupByKeyAux (buildKey p :: seen) ps).map buildKey := by
        intro hmem
        have := ihf _ hmem
        simp [List.contains_cons] at this
      refine ⟨?_, ?_⟩
      · simpa [List.nodup_cons, hnotin] using ihn
      · intro k hk
        simp only [List.map_cons, List.mem_cons] at hk
        rcases hk with rfl | hk
        · simpa using hseen
        · have := ihf _ hk
          simp [List.contains_cons] at this
          exact by simpa using this.2

theorem extract_nodup (ns : List BuildNode) :
    ((extractSubBuildLinks ns).map buildKey).Nodup :=
  (dedupByKeyAux_nodup _ []).1

/-- The sub-build fold when every child is either absent from the server
(404, swallowed to zero records) or a healthy leaf build: the fold succeeds
and returns exactly the concatenated per-child records. -/
theorem childrenFold_skip_or_leaf {f : Fetcher} {baseUrl : String} {inc : Bool}
    {fuel : Nat} :
    ∀ (cs : List PipelineInfo) (st : TraceState),
      (∀ c ∈ cs,
        (fetchStepListRaw f c = .error (.network (some 404)) ∨
          (∃ nsc, fetchStepListRaw f c = .ok nsc ∧ extractSubBuildLinks nsc = [] ∧
            (currentFailuresAux f baseUrl inc c (failedOf nsc)).2.isOk = true)) ∧
        st.visited.contains (buildKey c) = false) →
      (cs.map buildKey).Nodup →
      ∃ st', childrenFold (buildFailureReportRec f baseUrl inc (fuel + 1)) cs st
          = some (st', .ok (cs.flatMap (recordsOf f baseUrl inc))) ∧
        st'.visited = st.visited ++ cs.map buildKey := by
  intro cs
  induction cs with
  | nil => intro st _ _; exact ⟨st, rfl, by simp⟩
  | cons c cs ih =>
    intro st hall hnodup
    obtain ⟨hc, hcv⟩ := hall c (by simp)
    have hx : (buildKey c :: cs.map buildKey).Nodup := by simpa using hnodup
    have hnotin : buildKey c ∉ cs.map buildKey := (List.nodup_cons.mp hx).1
    have hnodup' : (cs.map buildKey).Nodup := (List.nodup_cons.mp hx).2
    have hfreshNext : ∀ (lg : List ((String × Nat) × String)) (d : PipelineInfo), d ∈ cs →
        (TraceState.mk (st.visited ++ [buildKey c]) (st.processed ++ [c])
          lg).visited.contains (buildKey d) = false := by
      intro lg d hd
      have hfresh : buildKey d ∉ st.visited := by
        simpa using (hall d (by simp [hd])).2
      have hne : buildKey d ≠ buildKey c := fun hcontr =>
        hnotin (hcontr ▸ List.mem_map_of_mem buildKey hd)
      show (st.visited ++ [buildKey c]).contains (buildKey d) = false
      rw [contains_append]
      simp [List.contains_cons, hfresh, hne]
    rcases hc with h404 | ⟨nsc, hok, hleaf, hcok⟩
    · -- child absent: BuildNotFound is caught, zero records, key recorded
      have hrun := @go_step_fetch_error f baseUrl inc fuel c st
        (.network (some 404)) hcv h404
      have hmap : map404ToBuildNotFound c (.network (some 404))
          = .buildNotFoundError c.path c.buildNumber := rfl
      rw [hmap] at hrun
      obtain ⟨st', hfold, hvis⟩ := ih
        ⟨st.visited ++ [buildKey c], st.processed ++ [c], st.consoleLog⟩
        (fun d hd => ⟨(hall d (by simp [hd])).1, hfreshNext _ d hd⟩)
        hnodup'
      refine ⟨st', ?_, ?_⟩
      · unfold childrenFold
        rw [hrun]
        dsimp only
        rw [hfold]
        have hrc : recordsOf f baseUrl inc c = [] := by
          unfold recordsOf; rw [h404]
        simp [hrc]
      · rw [hvis]; simp
    · -- healthy leaf child: its own records, no grandchildren
      obtain ⟨curc, hcur⟩ : ∃ curc,
          (currentFailuresAux f baseUrl inc c (failedOf nsc)).2 = .ok curc := by
        cases h : (currentFailuresAux f baseUrl inc c (failedOf nsc)).2 with
        | error e => rw [h] at hcok; simp [Except.isOk, Except.toBool] at hcok
        | ok v => exact ⟨v, rfl⟩
      have hrun := @go_step_ok f baseUrl inc fuel c st nsc hcv hok
      rw [hleaf] at hrun
      obtain ⟨clogc, hcc⟩ : ∃ clogc, currentFailuresAux f baseUrl inc c (failedOf nsc)
          = (clogc, .ok curc) := by
        refine ⟨(currentFailuresAux f baseUrl inc c (failedOf nsc)).1, ?_⟩
        rw [← hcur]
      rw [hcc] at hrun
      simp only [childrenFold] at hrun
      obtain ⟨st', hfold, hvis⟩ := ih
        ⟨st.visited ++ [buildKey c], st.processed ++ [c], st.consoleLog ++ clogc⟩
        (fun d hd => ⟨(hall d (by simp [hd])).1, hfreshNext _ d hd⟩)
        hnodup'
      refine ⟨st', ?_, ?_⟩
      · unfold childrenFold
        rw [hrun]
        dsimp only
        rw [hfold]
        have hrc : recordsOf f baseUrl inc c = curc := by
          unfold recordsOf
          rw [hok]
          dsimp only
          rw [hcur]
        simp [hrc]
      · rw [hvis]; simp

theorem currentFailures_err_not_bnf :
    ∀ (l : List BuildNode) {f : Fetcher} {baseUrl : String} {inc : Bool}
      {p : PipelineInfo} {lg} {e : JenkinsError},
      currentFailuresAux f baseUrl inc p l = (lg, .error e) →
      ∀ pl n, e ≠ .buildNotFoundError pl n := by
  intro l
  induction l with
  | nil => intro f baseUrl inc p lg e h pl n; simp [currentFailuresAux] at h
  | cons nd rest ih =>
    intro f baseUrl inc p lg e h pl n
    unfold currentFailuresAux at h
    split at h
    · split at h
      next e0 _ =>
        simp only [Prod.mk.injEq, Except.error.injEq] at h
        exact h.2 ▸ toJenkins_ne_bnf e0 pl n
      next txt _ =>
        split at h
        next log e1 heq =>
          simp only [Prod.mk.injEq, Except.error.injEq] at h
          exact h.2 ▸ ih heq pl n
        next log rs heq =>
          simp only [Prod.mk.injEq] at h
          cases h.2
    · split at h
      next log e1 heq =>
        simp only [Prod.mk.injEq, Except.error.injEq] at h
        exact h.2 ▸ ih heq pl n
      next log rs heq =>
        simp only [Prod.mk.injEq] at h
        cases h.2

theorem currentFailures_log_ok :
    ∀ (l : List BuildNode) {f : Fetcher} {baseUrl : String} {inc : Bool}
      {p : PipelineInfo} {lg} {rs},
      currentFailuresAux f baseUrl inc p l = (lg, .ok rs) →
      lg = if inc then l.map (fun n => ((p.path, p.buildNumber), n.id)) else [] := by
  intro l
  induction l with
  | nil =>
    intro f baseUrl inc p lg rs h
    simp only [currentFailuresAux, Prod.mk.injEq] at h
    rw [← h.1]; simp
  | cons nd rest ih =>
    intro f baseUrl inc p lg rs h
    unfold currentFailuresAux at h
    split at h
    next hinc =>
      split at h
      next e0 _ => simp only [Prod.mk.injEq] at h; cases h.2
      next txt _ =>
        split at h
        next log e1 heq => simp only [Prod.mk.injEq] at h; cases h.2
        next log rs0 heq =>
          simp only [Prod.mk.injEq] at h
          rw [← h.1, ih heq]
          simp [hinc]
    next hinc =>
      split at h
      next log e1 heq => simp only [Prod.mk.injEq] at h; cases h.2
      next log rs0 heq =>
        simp only [Prod.mk.injEq] at h
        rw [← h.1, ih heq]
        simp [hinc]

theorem currentFailures_fields :
    ∀ (l : List BuildNode) {f : Fetcher} {baseUrl : String} {inc : Bool}
      {p : PipelineInfo} {lg} {rs},
      currentFailuresAux f baseUrl inc p l = (lg, .ok rs) →
      ∀ r ∈ rs, r.pipeline = p.path ∧ r.buildNumber = p.buildNumber := by
  intro l
  induction l with
  | nil =>
    intro f baseUrl inc p lg rs h r hr
    simp only [currentFailuresAux, Prod.mk.injEq, Except.ok.injEq] at h
    rw [← h.2] at hr
    cases hr
  | cons nd rest ih =>
    intro f baseUrl inc p lg rs h r hr
    unfold currentFailuresAux at h
    split at h
    · split at h
      next e0 _ => simp only [Prod.mk.injEq] at h; cases h.2
      next txt _ =>
        split at h
        next log e1 heq => simp only [Prod.mk.injEq] at h; cases h.2
        next log rs0 heq =>
          simp only [Prod.mk.injEq, Except.ok.injEq] at h
          rw [← h.2] at hr
          rcases List.mem_cons.mp hr with rfl | hr
          · exact ⟨rfl, rfl⟩
          · exact ih heq r hr
    · split at h
      next log e1 heq => simp only [Prod.mk.injEq] at h; cases h.2
      next log rs0 heq =>
        simp only [Prod.mk.injEq, Except.ok.injEq] at h
        rw [← h.2] at hr
        rcases List.mem_cons.mp hr with rfl | hr
        · exact ⟨rfl, rfl⟩
        · exact ih heq r hr

theorem contains_append_false {l1 l2 : List String} {a : String}
    (h : (l1 ++ l2).contains a = false) :
    l1.contains a = false ∧ l2.contains a = false := by
  rw [contains_append] at h
  constructor
  · cases hx : l1.contains a
    · rfl
    · rw [hx] at h; simp at h
  · cases hx : l2.contains a
    · rfl
    · rw [hx] at h; simp at h

theorem goChar_refl (f : Fetcher) (baseUrl : String) (inc : Bool) (st : TraceState) :
    goChar f baseUrl inc st st (.ok []) := by
  refine ⟨[], by simp, by simp, by simp, by simp, ?_, ?_⟩
  · intro rs h
    cases h
    refine ⟨by simp, ?_⟩
    cases inc <;> simp
  · intro pl n h
    cases h

/-- Sequencing two characterised phases when the first ended in the caught
`BuildNotFoundError` (and hence produced no records). -/
theorem goChar_seq_bnf {f : Fetcher} {baseUrl : String} {inc : Bool}
    {st st1 st2 : TraceState} {pl : String} {n : Nat}
    {res : Except JenkinsError (List FailureReport)}
    (h1 : goChar f baseUrl inc st st1 (.error (.buildNotFoundError pl n)))
    (h2 : goChar f baseUrl inc st1 st2 res) :
    goChar f baseUrl inc st st2 res := by
  obtain ⟨dp1, hv1, hp1, hn1, hf1, _, hbnf1⟩ := h1
  obtain ⟨dp2, hv2, hp2, hn2, hf2, hok2, hbnf2⟩ := h2
  obtain ⟨hrec1, hlog1⟩ := hbnf1 pl n rfl
  refine ⟨dp1 ++ dp2, ?_, ?_, ?_, ?_, ?_, ?_⟩
  · rw [hv2, hv1, List.map_append, List.append_assoc]
  · rw [hp2, hp1, List.append_assoc]
  · rw [List.map_append]
    refine List.Nodup.append hn1 hn2 ?_
    intro a ha1 ha2
    have h0 := hf2 a ha2
    rw [hv1] at h0
    exact absurd ha1 (by simpa using (contains_append_false h0).2)
  · intro k hk
    rw [List.map_append] at hk
    rcases List.mem_append.mp hk with hk | hk
    · exact hf1 k hk
    · have h0 := hf2 k hk
      rw [hv1] at h0
      exact (contains_append_false h0).1
  · intro rs h
    obtain ⟨hrs, hlog⟩ := hok2 rs h
    refine ⟨by rw [hrs, List.flatMap_append, hrec1, List.nil_append], ?_⟩
    rw [hlog, hlog1]
    cases inc <;> simp [List.flatMap_append]
  · intro pl' n' h
    obtain ⟨hrec2, hlog⟩ := hbnf2 pl' n' h
    refine ⟨by rw [List.flatMap_append, hrec1, hrec2]; rfl, ?_⟩
    rw [hlog, hlog1]
    cases inc <;> simp [List.flatMap_append]

/-- Sequencing a successful phase with a failing phase whose error is not
the caught `BuildNotFoundError`. -/
theorem goChar_seq_ok_err {f : Fetcher} {baseUrl : String} {inc : Bool}
    {st st1 st2 : TraceState} {rs1 : List FailureReport} {e2 : JenkinsError}
    (h1 : goChar f baseUrl inc st st1 (.ok rs1))
    (h2 : goChar f baseUrl inc st1 st2 (.error e2))
    (hne : ∀ pl n, e2 ≠ .buildNotFoundError pl n) :
    goChar f baseUrl inc st st2 (.error e2) := by
  obtain ⟨dp1, hv1, hp1, hn1, hf1, _, _⟩ := h1
  obtain ⟨dp2, hv2, hp2, hn2, hf2, _, _⟩ := h2
  refine ⟨dp1 ++ dp2, ?_, ?_, ?_, ?_, ?_, ?_⟩
  · rw [hv2, hv1, List.map_append, List.append_assoc]
  · rw [hp2, hp1, List.append_assoc]
  · rw [List.map_append]
    refine List.Nodup.append hn1 hn2 ?_
    intro a ha1 ha2
    have h0 := hf2 a ha2
    rw [hv1] at h0
    exact absurd ha1 (by simpa using (contains_append_false h0).2)
  · intro k hk
    rw [List.map_append] at hk
    rcases List.mem_append.mp hk with hk | hk
    · exact hf1 k hk
    · have h0 := hf2 k hk
      rw [hv1] at h0
      exact (contains_append_false h0).1
  · intro rs h
    cases h
  · intro pl n h
    rw [show e2 = .buildNotFoundError pl n by cases h; rfl] at hne
    exact absurd rfl (hne pl n)

/-- Sequencing two successful characterised phases. -/
theorem goChar_seq_ok_ok {f : Fetcher} {baseUrl : String} {inc : Bool}
    {st st1 st2 : TraceState} {rs1 rs2 : List FailureReport}
    (h1 : goChar f baseUrl inc st st1 (.ok rs1))
    (h2 : goChar f baseUrl inc st1 st2 (.ok rs2)) :
    goChar f baseUrl inc st st2 (.ok (rs1 ++ rs2)) := by
  obtain ⟨dp1, hv1, hp1, hn1, hf1, hok1, _⟩ := h1
  obtain ⟨dp2, hv2, hp2, hn2, hf2, hok2, _⟩ := h2
  obtain ⟨hrs1, hlog1⟩ := hok1 rs1 rfl
  obtain ⟨hrs2, hlog2⟩ := hok2 rs2 rfl
  refine ⟨dp1 ++ dp2, ?_, ?_, ?_, ?_, ?_, ?_⟩
  · rw [hv2, hv1, List.map_append, List.append_assoc]
  · rw [hp2, hp1, List.append_assoc]
  · rw [List.map_append]
    refine List.Nodup.append hn1 hn2 ?_
    intro a ha1 ha2
    have h0 := hf2 a ha2
    rw [hv1] at h0
    exact absurd ha1 (by simpa using (contains_append_false h0).2)
  · intro k hk
    rw [List.map_append] at hk
    rcases List.mem_append.mp hk with hk | hk
    · exact hf1 k hk
    · have h0 := hf2 k hk
      rw [hv1] at h0
      exact (contains_append_false h0).1
  · intro rs h
    cases h
    refine ⟨by rw [hrs1, hrs2, List.flatMap_append], ?_⟩
    rw [hlog2, hlog1]
    cases inc <;> simp [List.flatMap_append]
  · intro pl n h
    cases h

/-- One processed build with a failing fetch. -/
theorem goChar_step_fetch_error {f : Fetcher} {baseUrl : String} {inc : Bool}
    {p : PipelineInfo} {st : TraceState} {e : ClientError}
    (hv : st.visited.contains (buildKey p) = false)
    (hf : fetchStepListRaw f p = .error e) :
    goChar f baseUrl inc st
      ⟨st.visited ++ [buildKey p], st.processed ++ [p], st.consoleLog⟩
      (.error (map404ToBuildNotFound p e)) := by
  refine ⟨[p], by simp, by simp, by simp, ?_, ?_, ?_⟩
  · intro k hk
    simp only [List.map_cons, List.map_nil, List.mem_singleton] at hk
    rw [hk]; exact hv
  · intro rs h
    cases h
  · intro pl n _
    have hrec : recordsOf f baseUrl inc p = [] := by
      unfold recordsOf; rw [hf]
    have hcalls : consoleCallsOf f p = [] := by
      unfold consoleCallsOf; rw [hf]
    refine ⟨by simp [hrec], ?_⟩
    cases inc <;> simp [hcalls]

/-- One processed build whose record assembly fails (console fetch error). -/
theorem goChar_step_cur_err {f : Fetcher} {baseUrl : String} {inc : Bool}
    {p : PipelineInfo} {st : TraceState} {ns : List BuildNode} {clog} {e : JenkinsError}
    (hv : st.visited.contains (buildKey p) = false)
    (hcc : currentFailuresAux f baseUrl inc p (failedOf ns) = (clog, .error e)) :
    goChar f baseUrl inc st
      ⟨st.visited ++ [buildKey p], st.processed ++ [p], st.consoleLog ++ clog⟩
      (.error e) := by
  refine ⟨[p], by simp, by simp, by simp, ?_, ?_, ?_⟩
  · intro k hk
    simp only [List.map_cons, List.map_nil, List.mem_singleton] at hk
    rw [hk]; exact hv
  · intro rs h
    cases h
  · intro pl n h
    exact absurd (by cases h; rfl) (currentFailures_err_not_bnf _ hcc pl n)

/-- One processed build with a successful fetch and record assembly. -/
theorem goChar_step_cur_ok {f : Fetcher} {baseUrl : String} {inc : Bool}
    {p : PipelineInfo} {st : TraceState} {ns : List BuildNode} {clog} {cur}
    (hv : st.visited.contains (buildKey p) = false)
    (hf : fetchStepListRaw f p = .ok ns)
    (hcc : currentFailuresAux f baseUrl inc p (failedOf ns) = (clog, .ok cur)) :
    goChar f baseUrl inc st
      ⟨st.visited ++ [buildKey p], st.processed ++ [p], st.consoleLog ++ clog⟩
      (.ok cur) := by
  refine ⟨[p], by simp, by simp, by simp, ?_, ?_, ?_⟩
  · intro k hk
    simp only [List.map_cons, List.map_nil, List.mem_singleton] at hk
    rw [hk]; exact hv
  · intro rs h
    cases h
    have hrec : recordsOf f baseUrl inc p = cur := by
      unfold recordsOf
      rw [hf]
      dsimp only
      rw [show (currentFailuresAux f baseUrl inc p (failedOf ns)).2 = .ok cur by rw [hcc]]
    have hcalls : inc = true → consoleCallsOf f p = (failedOf ns).map
        (fun n => ((p.path, p.buildNumber), n.id)) := by
      intro _
      unfold consoleCallsOf; rw [hf]
    have hclog := currentFailures_log_ok _ hcc
    refine ⟨by simp [hrec], ?_⟩
    cases inc with
    | false =>
      simp at hclog
      simp [hclog]
    | true =>
      simp at hclog
      simp [hclog, hcalls rfl]
  · intro pl n h
    cases h

/-- The characterisation is preserved by the sub-build fold. -/
theorem childrenFold_char {f : Fetcher} {baseUrl : String} {inc : Bool}
    {run : PipelineInfo → TraceState →
      Option (TraceState × Except JenkinsError (List FailureReport))}
    (hrun : ∀ c st0 out0, run c st0 = some out0 → goChar f baseUrl inc st0 out0.1 out0.2) :
    ∀ (cs : List PipelineInfo) (st : TraceState)
      (out : TraceState × Except JenkinsError (List FailureReport)),
      childrenFold run cs st = some out →
      goChar f baseUrl inc st out.1 out.2 ∧
      ∀ pl n, out.2 ≠ .error (.buildNotFoundError pl n) := by
  intro cs
  induction cs with
  | nil =>
    intro st out h
    cases h
    exact ⟨goChar_refl f baseUrl inc st, fun pl n h => by cases h⟩
  | cons c cs ih =>
    intro st out h
    unfold childrenFold at h
    cases hrc : run c st with
    | none => rw [hrc] at h; cases h
    | some out1 =>
      rw [hrc] at h
      have hchar1 := hrun c st out1 hrc
      obtain ⟨st1, res1⟩ := out1
      cases res1 with
      | error e1 =>
        cases e1 with
        | buildNotFoundError pl n =>
          have hrest := ih st1 out h
          exact ⟨goChar_seq_bnf hchar1 hrest.1, hrest.2⟩
        | networkError s =>
          cases h
          exact ⟨hchar1, fun pl n h => by cases h⟩
        | authenticationError =>
          cases h
          exact ⟨hchar1, fun pl n h => by cases h⟩
        | validationError =>
          cases h
          exact ⟨hchar1, fun pl n h => by cases h⟩
        | invalidLocatorError e0 =>
          cases h
          exact ⟨hchar1, fun pl n h => by cases h⟩
      | ok rs1 =>
        dsimp only at h
        cases hrest : childrenFold run cs st1 with
        | none => rw [hrest] at h; cases h
        | some out2 =>
          rw [hrest] at h
          have hchar2 := ih st1 out2 hrest
          obtain ⟨st2, res2⟩ := out2
          cases res2 with
          | error e2 =>
            cases h
            exact ⟨goChar_seq_ok_err hchar1 hchar2.1
              (fun pl n heq => hchar2.2 pl n (by rw [heq])), hchar2.2⟩
          | ok rs2 =>
            cases h
            exact ⟨goChar_seq_ok_ok hchar1 hchar2.1, fun pl n h => by cases h⟩

/-- Master characterisation of `buildFailureReportRecursive`. -/
theorem go_char {f : Fetcher} {baseUrl : String} {inc : Bool} :
    ∀ (fuel : Nat) (p : PipelineInfo) (st : TraceState)
      (out : TraceState × Except JenkinsError (List FailureReport)),
      buildFailureReportRec f baseUrl inc fuel p st = some out →
      goChar f baseUrl inc st out.1 out.2 := by
  intro fuel
  induction fuel with
  | zero => intro p st out h; cases h
  | succ fuel ih =>
    intro p st out h
    cases hv : st.visited.contains (buildKey p) with
    | true =>
      rw [go_step_visited hv] at h
      cases h
      exact goChar_refl f baseUrl inc st
    | false =>
      cases hf : fetchStepListRaw f p with
      | error e =>
        rw [go_step_fetch_error hv hf] at h
        cases h
        exact goChar_step_fetch_error hv hf
      | ok ns =>
        rw [go_step_ok hv hf] at h
        cases hcc : currentFailuresAux f baseUrl inc p (failedOf ns) with
        | mk clog current =>
          rw [hcc] at h
          cases current with
          | error e =>
            cases h
            exact goChar_step_cur_err hv hcc
          | ok cur =>
            dsimp only at h
            cases hcf : childrenFold (buildFailureReportRec f baseUrl inc fuel)
                (extractSubBuildLinks ns)
                ⟨st.visited ++ [buildKey p], st.processed ++ [p],
                 st.consoleLog ++ clog⟩ with
            | none => rw [hcf] at h; cases h
            | some out2 =>
              rw [hcf] at h
              have hchar2 := childrenFold_char
                (fun c st0 out0 hc => ih c st0 out0 hc) _ _ _ hcf
              obtain ⟨st2, res2⟩ := out2
              cases res2 with
              | error e2 =>
                cases h
                exact goChar_seq_ok_err (goChar_step_cur_ok hv hf hcc)
                  hchar2.1 (fun pl n heq => hchar2.2 pl n (by rw [heq]))
              | ok rs2 =>
                cases h
                exact goChar_seq_ok_ok (goChar_step_cur_ok hv hf hcc) hchar2.1

theorem length_filter_mono {α : Type} (p q : α → Bool) (l : List α)
    (h : ∀ x, q x = true → p x = true) :
    (l.filter q).length ≤ (l.filter p).length := by
  induction l with
  | nil => simp
  | cons a t ih =>
    simp only [List.filter_cons]
    cases hq : q a
    · cases hp : p a
      · simpa using ih
      · simpa using Nat.le_trans ih (Nat.le_succ _)
    · rw [h a hq]
      simpa using ih

theorem length_filter_lt {α : Type} (p q : α → Bool) (l : List α) (a : α)
    (ha : a ∈ l) (hpq : ∀ x, q x = true → p x = true)
    (hpa : p a = true) (hqa : q a = false) :
    (l.filter q).length < (l.filter p).length := by
  induction l with
  | nil => cases ha
  | cons b t ih =>
    rcases List.mem_cons.mp ha with rfl | hat
    · simp only [List.filter_cons, hpa, hqa]
      simpa using Nat.lt_succ_of_le (length_filter_mono p q t hpq)
    · simp only [List.filter_cons]
      cases hq : q b
      · cases hp : p b
        · simpa using ih hat
        · simpa using Nat.lt_succ_of_lt (ih hat)
      · rw [hpq b hq]
        simpa using Nat.succ_lt_succ (ih hat)

theorem freshCount_mono {U : List String} {st st' : TraceState}
    (h : ∃ more, st'.visited = st.visited ++ more) :
    freshCount U st' ≤ freshCount U st := by
  obtain ⟨more, hm⟩ := h
  apply length_filter_mono
  intro k hk
  simp only [Bool.not_eq_true'] at hk ⊢
  rw [hm] at hk
  exact (contains_append_false hk).1

theorem freshCount_strict {U : List String} {st : TraceState} {k : String}
    (hU : k ∈ U) (hv : st.visited.contains k = false)
    (pr : List PipelineInfo) (lg : List ((String × Nat) × String)) :
    freshCount U ⟨st.visited ++ [k], pr, lg⟩ < freshCount U st := by
  apply length_filter_lt _ _ U k hU
  · intro x hx
    simp only [Bool.not_eq_true'] at hx ⊢
    exact (contains_append_false hx).1
  · simp only [Bool.not_eq_true']
    exact hv
  · show (!(st.visited ++ [k]).contains k) = false
    have hc : (st.visited ++ [k]).contains k = true := by
      rw [contains_append]
      simp [List.contains_cons]
    rw [hc]
    rfl

theorem freshCount_empty (U : List String) : freshCount U emptyTrace = U.length := by
  unfold freshCount emptyTrace
  simp [List.contains_nil]

theorem linkClosed_universe (f : Fetcher) (p : PipelineInfo) :
    linkClosed f (universeKeys f p) := by
  intro e he ns hns c hc
  unfold universeKeys linkKeys
  refine List.mem_cons.mpr (.inr ?_)
  refine List.mem_flatMap.mpr ⟨e, he, ?_⟩
  rw [hns]
  exact List.mem_map_of_mem buildKey hc

theorem fetch_ok_links_in_U {f : Fetcher} {U : List String} {q : PipelineInfo}
    {ns : List BuildNode} (hU : linkClosed f U)
    (hf : fetchStepListRaw f q = .ok ns) :
    ∀ c ∈ extractSubBuildLinks ns, buildKey c ∈ U := by
  unfold fetchStepListRaw at hf
  cases hfind : f.steps.find?
      (fun e => e.1.1 = q.path && e.1.2 = q.buildNumber) with
  | none => rw [hfind] at hf; cases hf
  | some entry =>
    rw [hfind] at hf
    exact hU entry (List.mem_of_find?_eq_some hfind) ns hf

/-- Fuel sufficiency: any fuel above the number of not-yet-visited candidate
keys makes the traversal complete (the cycle guard guarantees termination). -/
theorem go_isSome {f : Fetcher} {baseUrl : String} {inc : Bool} {U : List String}
    (hU : linkClosed f U) :
    ∀ (fuel : Nat) (p : PipelineInfo) (st : TraceState),
      buildKey p ∈ U → freshCount U st < fuel →
      (buildFailureReportRec f baseUrl inc fuel p st).isSome = true := by
  intro fuel
  induction fuel with
  | zero => intro p st _ hm; exact absurd hm (Nat.not_lt_zero _)
  | succ fuel ih =>
    intro p st hp hm
    have hcf : ∀ (cs : List PipelineInfo) (st0 : TraceState),
        (∀ c ∈ cs, buildKey c ∈ U) → freshCount U st0 < fuel →
        (childrenFold (buildFailureReportRec f baseUrl inc fuel) cs st0).isSome = true := by
      intro cs
      induction cs with
      | nil => intro st0 _ _; rfl
      | cons c cs ihc =>
        intro st0 hcs hm0
        have hrunSome := ih c st0 (hcs c (by simp)) hm0
        cases hrc : buildFailureReportRec f baseUrl inc fuel c st0 with
        | none => rw [hrc] at hrunSome; cases hrunSome
        | some out1 =>
          obtain ⟨dp, hvis, _, _, _, _, _⟩ := go_char fuel c st0 out1 hrc
          have hm1 : freshCount U out1.1 < fuel :=
            Nat.lt_of_le_of_lt (freshCount_mono ⟨_, hvis⟩) hm0
          have hrest := ihc out1.1 (fun d hd => hcs d (by simp [hd])) hm1
          unfold childrenFold
          rw [hrc]
          obtain ⟨st1, res1⟩ := out1
          cases res1 with
          | error e1 =>
            cases e1 with
            | buildNotFoundError pl n => exact hrest
            | networkError s => rfl
            | authenticationError => rfl
            | validationError => rfl
            | invalidLocatorError e0 => rfl
          | ok rs1 =>
            dsimp only
            dsimp only at hrest
            cases hr : childrenFold (buildFailureReportRec f baseUrl inc fuel) cs st1 with
            | none => rw [hr] at hrest; cases hrest
            | some out2 =>
              obtain ⟨st2, res2⟩ := out2
              cases res2 <;> rfl
    cases hv : st.visited.contains (buildKey p) with
    | true => rw [go_step_visited hv]; rfl
    | false =>
      cases hf : fetchStepListRaw f p with
      | error e => rw [go_step_fetch_error hv hf]; rfl
      | ok ns =>
        rw [go_step_ok hv hf]
        cases hcc : currentFailuresAux f baseUrl inc p (failedOf ns) with
        | mk clog current =>
          cases current with
          | error e => dsimp only; rfl
          | ok cur =>
            dsimp only
            have hm2 : freshCount U
                ⟨st.visited ++ [buildKey p], st.processed ++ [p],
                 st.consoleLog ++ clog⟩ < fuel :=
              Nat.lt_of_lt_of_le (freshCount_strict hp hv _ _) (Nat.lt_succ_iff.mp hm)
            have := hcf (extractSubBuildLinks ns)
              ⟨st.visited ++ [buildKey p], st.processed ++ [p], st.consoleLog ++ clog⟩
              (fetch_ok_links_in_U hU hf) hm2
            cases hr : childrenFold (buildFailureReportRec f baseUrl inc fuel)
                (extractSubBuildLinks ns)
                ⟨st.visited ++ [buildKey p], st.processed ++ [p],
                 st.consoleLog ++ clog⟩ with
            | none => rw [hr] at this; cases this
            | some out2 =>
              obtain ⟨st2, res2⟩ := out2
              cases res2 <;> rfl

/-- Fuel irrelevance: above the measure, the result does not depend on the
fuel — the fuelled model computes the one value of the source recursion. -/
theorem go_agree {f : Fetcher} {baseUrl : String} {inc : Bool} {U : List String}
    (hU : linkClosed f U) :
    ∀ (fuel1 fuel2 : Nat) (p : PipelineInfo) (st : TraceState),
      buildKey p ∈ U → freshCount U st < fuel1 → freshCount U st < fuel2 →
      buildFailureReportRec f baseUrl inc fuel1 p st
        = buildFailureReportRec f baseUrl inc fuel2 p st := by
  intro fuel1
  induction fuel1 with
  | zero => intro fuel2 p st _ hm1 _; exact absurd hm1 (Nat.not_lt_zero _)
  | succ g1 ih =>
    intro fuel2 p st hp hm1 hm2
    cases fuel2 with
    | zero => exact absurd hm2 (Nat.not_lt_zero _)
    | succ g2 =>
      have hcf : ∀ (cs : List PipelineInfo) (st0 : TraceState),
          (∀ c ∈ cs, buildKey c ∈ U) → freshCount U st0 < g1 → freshCount U st0 < g2 →
          childrenFold (buildFailureReportRec f baseUrl inc g1) cs st0
            = childrenFold (buildFailureReportRec f baseUrl inc g2) cs st0 := by
        intro cs
        induction cs with
        | nil => intro st0 _ _ _; rfl
        | cons c cs ihc =>
          intro st0 hcs hg1 hg2
          have hrun := ih g2 c st0 (hcs c (by simp)) hg1 hg2
          unfold childrenFold
          rw [hrun]
          cases hrc : buildFailureReportRec f baseUrl inc g2 c st0 with
          | none => rfl
          | some out1 =>
            have hrc1 : buildFailureReportRec f baseUrl inc g1 c st0 = some out1 := by
              rw [hrun, hrc]
            obtain ⟨dp, hvis, _, _, _, _, _⟩ := go_char g1 c st0 out1 hrc1
            have hm1' : freshCount U out1.1 < g1 :=
              Nat.lt_of_le_of_lt (freshCount_mono ⟨_, hvis⟩) hg1
            have hm2' : freshCount U out1.1 < g2 :=
              Nat.lt_of_le_of_lt (freshCount_mono ⟨_, hvis⟩) hg2
            have hrest := ihc out1.1 (fun d hd => hcs d (by simp [hd])) hm1' hm2'
            obtain ⟨st1, res1⟩ := out1
            dsimp only at hrest
            cases res1 with
            | error e1 =>
              cases e1 with
              | buildNotFoundError pl n => exact hrest
              | networkError s => rfl
              | authenticationError => rfl
              | validationError => rfl
              | invalidLocatorError e0 => rfl
            | ok rs1 =>
              dsimp only
              rw [hrest]
      cases hv : st.visited.contains (buildKey p) with
      | true => rw [go_step_visited hv, go_step_visited hv]
      | false =>
        cases hf : fetchStepListRaw f p with
        | error e => rw [go_step_fetch_error hv hf, go_step_fetch_error hv hf]
        | ok ns =>
          rw [go_step_ok hv hf, go_step_ok hv hf]
          cases hcc : currentFailuresAux f baseUrl inc p (failedOf ns) with
          | mk clog current =>
            cases current with
            | error e => rfl
            | ok cur =>
              dsimp only
              have hg1' : freshCount U
                  ⟨st.visited ++ [buildKey p], st.processed ++ [p],
                   st.consoleLog ++ clog⟩ < g1 :=
                Nat.lt_of_lt_of_le (freshCount_strict hp hv _ _) (Nat.lt_succ_iff.mp hm1)
              have hg2' : freshCount U
                  ⟨st.visited ++ [buildKey p], st.processed ++ [p],
                   st.consoleLog ++ clog⟩ < g2 :=
                Nat.lt_of_lt_of_le (freshCount_strict hp hv _ _) (Nat.lt_succ_iff.mp hm2)
              rw [hcf (extractSubBuildLinks ns) _ (fetch_ok_links_in_U hU hf) hg1' hg2']

theorem currentFailures_false :
    ∀ (l : List BuildNode) (f : Fetcher) (baseUrl : String) (p : PipelineInfo),
      currentFailuresAux f baseUrl false p l
        = ([], .ok (l.map (fun n => mkReport baseUrl p n none))) := by
  intro l
  induction l with
  | nil => intro f baseUrl p; rfl
  | cons nd rest ih =>
    intro f baseUrl p
    unfold currentFailuresAux
    rw [if_neg (by simp), ih]
    rfl

theorem childrenFold_log
    {run : PipelineInfo → TraceState →
      Option (TraceState × Except JenkinsError (List FailureReport))}
    (hrun : ∀ c st0 out0, run c st0 = some out0 → out0.1.consoleLog = st0.consoleLog) :
    ∀ (cs : List PipelineInfo) (st : TraceState) out,
      childrenFold run cs st = some out → out.1.consoleLog = st.consoleLog := by
  intro cs
  induction cs with
  | nil => intro st out h; cases h; rfl
  | cons c cs ihc =>
    intro st out h
    unfold childrenFold at h
    cases hrc : run c st with
    | none => rw [hrc] at h; cases h
    | some out1 =>
      rw [hrc] at h
      have hl1 := hrun c st out1 hrc
      obtain ⟨st1, res1⟩ := out1
      cases res1 with
      | error e1 =>
        cases e1 with
        | buildNotFoundError pl n => rw [ihc st1 out h, hl1]
        | networkError s => cases h; exact hl1
        | authenticationError => cases h; exact hl1
        | validationError => cases h; exact hl1
        | invalidLocatorError e0 => cases h; exact hl1
      | ok rs1 =>
        dsimp only at h
        cases hr : childrenFold run cs st1 with
        | none => rw [hr] at h; cases h
        | some out2 =>
          rw [hr] at h
          have hl2 := ihc st1 out2 hr
          obtain ⟨st2, res2⟩ := out2
          cases res2 with
          | error e2 => cases h; rw [hl2, hl1]
          | ok rs2 => cases h; rw [hl2, hl1]

/-- With `includeFull = false` the engine issues no console request at all,
whatever else happens. -/
theorem go_log_false {f : Fetcher} {baseUrl : String} :
    ∀ (fuel : Nat) (p : PipelineInfo) (st : TraceState) out,
      buildFailureReportRec f baseUrl false fuel p st = some out →
      out.1.consoleLog = st.consoleLog := by
  intro fuel
  induction fuel with
  | zero => intro p st out h; cases h
  | succ fuel ih =>
    intro p st out h
    cases hv : st.visited.contains (buildKey p) with
    | true => rw [go_step_visited hv] at h; cases h; rfl
    | false =>
      cases hf : fetchStepListRaw f p with
      | error e => rw [go_step_fetch_error hv hf] at h; cases h; rfl
      | ok ns =>
        rw [go_step_ok hv hf, currentFailures_false] at h
        dsimp only at h
        cases hr : childrenFold (buildFailureReportRec f baseUrl false fuel)
            (extractSubBuildLinks ns)
            ⟨st.visited ++ [buildKey p], st.processed ++ [p], st.consoleLog ++ []⟩ with
        | none => rw [hr] at h; cases h
        | some out2 =>
          rw [hr] at h
          have hl2 := childrenFold_log (fun c st0 out0 hc => ih c st0 out0 hc)
            _ _ _ hr
          obtain ⟨st2, res2⟩ := out2
          cases res2 with
          | error e2 => cases h; rw [hl2]; simp
          | ok rs2 => cases h; rw [hl2]; simp

theorem mem_contains_true {l : List String} {a : String} (h : a ∈ l) :
    l.contains a = true := by
  induction l with
  | nil => cases h
  | cons b t ih =>
    rcases List.mem_cons.mp h with rfl | h2
    · simp [List.contains_cons]
    · rw [List.contains_cons, ih h2, Bool.or_true]

theorem contains_append_left {l1 : List String} (l2 : List String) {a : String}
    (h : l1.contains a = true) : (l1 ++ l2).contains a = true := by
  rw [contains_append, h]
  rfl

theorem recordsOf_fields {f : Fetcher} {baseUrl : String} {inc : Bool}
    {q : PipelineInfo} :
    ∀ r ∈ recordsOf f baseUrl inc q,
      r.pipeline = q.path ∧ r.buildNumber = q.buildNumber := by
  intro r hr
  unfold recordsOf at hr
  cases hf : fetchStepListRaw f q with
  | error e => rw [hf] at hr; cases hr
  | ok ns =>
    rw [hf] at hr
    dsimp only at hr
    cases hc : (currentFailuresAux f baseUrl inc q (failedOf ns)).2 with
    | error e => rw [hc] at hr; cases hr
    | ok rs =>
      rw [hc] at hr
      have hpair : currentFailuresAux f baseUrl inc q (failedOf ns)
          = ((currentFailuresAux f baseUrl inc q (failedOf ns)).1, .ok rs) := by
        rw [← hc]
      exact currentFailures_fields (failedOf ns) hpair r hr

theorem nodup_pairs {dp : List PipelineInfo}
    (h : (dp.map buildKey).Nodup) :
    (dp.map (fun x => (x.path, x.buildNumber))).Nodup := by
  have heq : dp.map buildKey
      = (dp.map (fun x => (x.path, x.buildNumber))).map
          (fun pr => pr.1 ++ "/" ++ (⟨natToChars pr.2⟩ : String)) := by
    rw [List.map_map]
    rfl
  rw [heq] at h
  exact List.Nodup.of_map _ h

theorem flatMap_filter_pair (f : Fetcher) (baseUrl : String) (inc : Bool) :
    ∀ (dp : List PipelineInfo) (q : PipelineInfo), q ∈ dp →
      (dp.map (fun x => (x.path, x.buildNumber))).Nodup →
      (dp.flatMap (recordsOf f baseUrl inc)).filter
          (fun r => r.pipeline == q.path && r.buildNumber == q.buildNumber)
        = recordsOf f baseUrl inc q := by
  intro dp
  induction dp with
  | nil => intro q hq _; cases hq
  | cons c rest ih =>
    intro q hq hnd
    rw [List.flatMap_cons, List.filter_append]
    simp only [List.map_cons, List.nodup_cons] at hnd
    rcases List.mem_cons.mp hq with rfl | hqr
    · have h1 : (recordsOf f baseUrl inc q).filter
          (fun r => r.pipeline == q.path && r.buildNumber == q.buildNumber)
          = recordsOf f baseUrl inc q := by
        rw [List.filter_eq_self]
        intro r hr
        obtain ⟨hp1, hp2⟩ := recordsOf_fields r hr
        simp [hp1, hp2]
      have h2 : ((rest.flatMap (recordsOf f baseUrl inc)).filter
          (fun r => r.pipeline == q.path && r.buildNumber == q.buildNumber)) = [] := by
        rw [List.filter_eq_nil_iff]
        intro r hr hcontra
        obtain ⟨q2, hq2, hrq2⟩ := List.mem_flatMap.mp hr
        obtain ⟨hp1, hp2⟩ := recordsOf_fields r hrq2
        simp only [Bool.and_eq_true, beq_iff_eq] at hcontra
        refine hnd.1 ?_
        have hpair : (q.path, q.buildNumber) = (q2.path, q2.buildNumber) := by
          rw [← hcontra.1, ← hcontra.2, hp1, hp2]
        rw [hpair]
        exact List.mem_map_of_mem _ hq2
      rw [h1, h2, List.append_nil]
    · have h1 : (recordsOf f baseUrl inc c).filter
          (fun r => r.pipeline == q.path && r.buildNumber == q.buildNumber) = [] := by
        rw [List.filter_eq_nil_iff]
        intro r hr hcontra
        obtain ⟨hp1, hp2⟩ := recordsOf_fields r hr
        simp only [Bool.and_eq_true, beq_iff_eq] at hcontra
        refine hnd.1 ?_
        have hpair : (c.path, c.buildNumber) = (q.path, q.buildNumber) := by
          rw [← hp1, ← hp2, hcontra.1, hcontra.2]
        rw [hpair]
        exact List.mem_map_of_mem _ hqr
      rw [h1, List.nil_append, ih q hqr hnd.2]

/-- Every completed call leaves its own coordinate's key in the VisitedSet. -/
theorem go_adds_key {f : Fetcher} {baseUrl : String} {inc : Bool} :
    ∀ (fuel : Nat) (p : PipelineInfo) (st : TraceState) out,
      buildFailureReportRec f baseUrl inc fuel p st = some out →
      out.1.visited.contains (buildKey p) = true := by
  have hkey : ∀ (l : List String) (k : String), (l ++ [k]).contains k = true := by
    intro l k
    rw [contains_append]
    simp [List.contains_cons]
  intro fuel p st out h
  cases fuel with
  | zero => cases h
  | succ fuel =>
    cases hv : st.visited.contains (buildKey p) with
    | true =>
      rw [go_step_visited hv] at h
      cases h
      exact hv
    | false =>
      cases hf : fetchStepListRaw f p with
      | error e =>
        rw [go_step_fetch_error hv hf] at h
        cases h
        exact hkey st.visited (buildKey p)
      | ok ns0 =>
        rw [go_step_ok hv hf] at h
        cases hcc : currentFailuresAux f baseUrl inc p (failedOf ns0) with
        | mk clog current =>
          rw [hcc] at h
          cases current with
          | error e =>
            cases h
            exact hkey st.visited (buildKey p)
          | ok cur =>
            dsimp only at h
            cases hfold : childrenFold (buildFailureReportRec f baseUrl inc fuel)
                (extractSubBuildLinks ns0)
                ⟨st.visited ++ [buildKey p], st.processed ++ [p],
                 st.consoleLog ++ clog⟩ with
            | none => rw [hfold] at h; cases h
            | some out3 =>
              rw [hfold] at h
              obtain ⟨dpc, hvc, _, _, _, _, _⟩ := (childrenFold_char
                (fun d st0 out0 hd => go_char fuel d st0 out0 hd) _ _ _ hfold).1
              obtain ⟨st3, res3⟩ := out3
              have hvc2 : st3.visited
                  = (st.visited ++ [buildKey p]) ++ dpc.map buildKey := hvc
              cases res3 with
              | error e3 =>
                cases h
                rw [hvc2]
                exact contains_append_left _ (hkey st.visited (buildKey p))
              | ok rs3 =>
                cases h
                rw [hvc2]
                exact contains_append_left _ (hkey st.visited (buildKey p))

/-- A completed, successful sub-build fold leaves every child's key in the
VisitedSet. -/
theorem childrenFold_covers {f : Fetcher} {baseUrl : String} {inc : Bool}
    {fuel : Nat} :
    ∀ (cs : List PipelineInfo) (st st' : TraceState) (rs : List FailureReport),
      childrenFold (buildFailureReportRec f baseUrl inc fuel) cs st
        = some (st', .ok rs) →
      ∀ c ∈ cs, st'.visited.contains (buildKey c) = true := by
  intro cs
  induction cs with
  | nil => intro st st' rs h c hc; cases hc
  | cons c0 cs ih =>
    intro st st' rs h c hc
    unfold childrenFold at h
    cases hrc : buildFailureReportRec f baseUrl inc fuel c0 st with
    | none => rw [hrc] at h; cases h
    | some out1 =>
      rw [hrc] at h
      have hkey1 := go_adds_key fuel c0 st out1 hrc
      obtain ⟨st1, res1⟩ := out1
      cases res1 with
      | error e1 =>
        cases e1 with
        | buildNotFoundError pl n =>
          rcases List.mem_cons.mp hc with rfl | hcs
          · obtain ⟨dpr, hvr, _, _, _, _, _⟩ := (childrenFold_char
              (fun d st0 out0 hd => go_char fuel d st0 out0 hd)
              cs st1 (st', .ok rs) h).1
            have hvr2 : st'.visited = st1.visited ++ dpr.map buildKey := hvr
            rw [hvr2]
            exact contains_append_left _ hkey1
          · exact ih st1 st' rs h c hcs
        | networkError s => cases h
        | authenticationError => cases h
        | validationError => cases h
        | invalidLocatorError e0 => cases h
      | ok rs1 =>
        dsimp only at h
        cases hr : childrenFold (buildFailureReportRec f baseUrl inc fuel) cs st1 with
        | none => rw [hr] at h; cases h
        | some out2 =>
          rw [hr] at h
          obtain ⟨st2, res2⟩ := out2
          cases res2 with
          | error e2 => cases h
          | ok rs2 =>
            cases h
            rcases List.mem_cons.mp hc with rfl | hcs
            · obtain ⟨dpr, hvr, _, _, _, _, _⟩ := (childrenFold_char
                (fun d st0 out0 hd => go_char fuel d st0 out0 hd)
                cs st1 (st', .ok rs2) hr).1
              have hvr2 : st'.visited = st1.visited ++ dpr.map buildKey := hvr
              rw [hvr2]
              exact contains_append_left _ hkey1
            · exact ih st1 st' rs2 hr c hcs

/-- `linksDone` is preserved by a successful sub-build fold. -/
theorem childrenFold_links {f : Fetcher} {baseUrl : String} {inc : Bool}
    {fuel : Nat}
    (hlinks : ∀ c st0 out0, buildFailureReportRec f baseUrl inc fuel c st0 = some out0 →
      linksDone f st0 out0.1 out0.2) :
    ∀ (cs : List PipelineInfo) (st st' : TraceState) (rs : List FailureReport),
      childrenFold (buildFailureReportRec f baseUrl inc fuel) cs st
        = some (st', .ok rs) →
      ∀ dp, st'.processed = st.processed ++ dp →
        ∀ q ∈ dp, ∀ ns, fetchStepListRaw f q = .ok ns →
          ∀ c ∈ extractSubBuildLinks ns, st'.visited.contains (buildKey c) = true := by
  intro cs
  induction cs with
  | nil =>
    intro st st' rs h dp hdp q hq ns hns c hc
    cases h
    have hdp0 : st.processed ++ [] = st.processed ++ dp := by
      rw [List.append_nil]
      exact hdp
    have hdpe : ([] : List PipelineInfo) = dp := List.append_cancel_left hdp0
    rw [← hdpe] at hq
    cases hq
  | cons c0 cs ih =>
    intro st st' rs h dp hdp q hq ns hns c hc
    unfold childrenFold at h
    cases hrc : buildFailureReportRec f baseUrl inc fuel c0 st with
    | none => rw [hrc] at h; cases h
    | some out1 =>
      rw [hrc] at h
      have hld1 := hlinks c0 st out1 hrc
      obtain ⟨dp1, hv1, hp1, _, _, _, _⟩ := go_char fuel c0 st out1 hrc
      obtain ⟨st1, res1⟩ := out1
      have hv12 : st1.visited = st.visited ++ dp1.map buildKey := hv1
      have hp12 : st1.processed = st.processed ++ dp1 := hp1
      cases res1 with
      | error e1 =>
        cases e1 with
        | buildNotFoundError pl n =>
          obtain ⟨dpr, hvr, hpr, _, _, _, _⟩ := (childrenFold_char
            (fun d st0 out0 hd => go_char fuel d st0 out0 hd)
            cs st1 (st', .ok rs) h).1
          have hvr2 : st'.visited = st1.visited ++ dpr.map buildKey := hvr
          have hpr2 : st'.processed = st1.processed ++ dpr := hpr
          have hdp0 : st.processed ++ (dp1 ++ dpr) = st.processed ++ dp := by
            rw [← List.append_assoc, ← hp12, ← hpr2]
            exact hdp
          have hdpe : dp1 ++ dpr = dp := List.append_cancel_left hdp0
          rw [← hdpe] at hq
          rcases List.mem_append.mp hq with hq1 | hqr
          · have := hld1 (.inr ⟨pl, n, rfl⟩) dp1 hp1 q hq1 ns hns c hc
            rw [hvr2]
            exact contains_append_left _ this
          · exact ih st1 st' rs h dpr hpr q hqr ns hns c hc
        | networkError s => cases h
        | authenticationError => cases h
        | validationError => cases h
        | invalidLocatorError e0 => cases h
      | ok rs1 =>
        dsimp only at h
        cases hr : childrenFold (buildFailureReportRec f baseUrl inc fuel) cs st1 with
        | none => rw [hr] at h; cases h
        | some out2 =>
          rw [hr] at h
          obtain ⟨st2, res2⟩ := out2
          cases res2 with
          | error e2 => cases h
          | ok rs2 =>
            cases h
            obtain ⟨dpr, hvr, hpr, _, _, _, _⟩ := (childrenFold_char
              (fun d st0 out0 hd => go_char fuel d st0 out0 hd)
              cs st1 (st', .ok rs2) hr).1
            have hvr2 : st'.visited = st1.visited ++ dpr.map buildKey := hvr
            have hpr2 : st'.processed = st1.processed ++ dpr := hpr
            have hdp0 : st.processed ++ (dp1 ++ dpr) = st.processed ++ dp := by
              rw [← List.append_assoc, ← hp12, ← hpr2]
              exact hdp
            have hdpe : dp1 ++ dpr = dp := List.append_cancel_left hdp0
            rw [← hdpe] at hq
            rcases List.mem_append.mp hq with hq1 | hqr
            · have := hld1 (.inl rfl) dp1 hp1 q hq1 ns hns c hc
              rw [hvr2]
              exact contains_append_left _ this
            · exact ih st1 st' rs2 hr dpr hpr q hqr ns hns c hc

/-- Master completeness: every completed call satisfies `linksDone` — on
success (or the caught `BuildNotFoundError`) every link of every newly
processed build ends up in the VisitedSet. -/
theorem go_links {f : Fetcher} {baseUrl : String} {inc : Bool} :
    ∀ (fuel : Nat) (p : PipelineInfo) (st : TraceState) out,
      buildFailureReportRec f baseUrl inc fuel p st = some out →
      linksDone f st out.1 out.2 := by
  intro fuel
  induction fuel with
  | zero => intro p st out h; cases h
  | succ fuel ih =>
    intro p st out h
    cases hv : st.visited.contains (buildKey p) with
    | true =>
      rw [go_step_visited hv] at h
      cases h
      intro _ dp hdp q hq ns hns c hc
      have hdp0 : st.processed ++ [] = st.processed ++ dp := by
        rw [List.append_nil]
        exact hdp
      have hdpe : ([] : List PipelineInfo) = dp := List.append_cancel_left hdp0
      rw [← hdpe] at hq
      cases hq
    | false =>
      cases hf : fetchStepListRaw f p with
      | error e =>
        rw [go_step_fetch_error hv hf] at h
        cases h
        intro _ dp hdp q hq ns hns c hc
        have hdp0 : st.processed ++ [p] = st.processed ++ dp := hdp
        have hdpe : [p] = dp := List.append_cancel_left hdp0
        rw [← hdpe] at hq
        rcases List.mem_cons.mp hq with rfl | hq0
        · rw [hf] at hns
          cases hns
        · cases hq0
      | ok ns0 =>
        rw [go_step_ok hv hf] at h
        cases hcc : currentFailuresAux f baseUrl inc p (failedOf ns0) with
        | mk clog current =>
          rw [hcc] at h
          cases current with
          | error e =>
            cases h
            intro hcond dp hdp q hq ns hns c hc
            rcases hcond with hik | ⟨pl, n, heq⟩
            · simp [Except.isOk, Except.toBool] at hik
            · exact absurd (by cases heq; rfl)
                (currentFailures_err_not_bnf _ hcc pl n)
          | ok cur =>
            dsimp only at h
            cases hfold : childrenFold (buildFailureReportRec f baseUrl inc fuel)
                (extractSubBuildLinks ns0)
                ⟨st.visited ++ [buildKey p], st.processed ++ [p],
                 st.consoleLog ++ clog⟩ with
            | none => rw [hfold] at h; cases h
            | some out3 =>
              rw [hfold] at h
              have hne := (childrenFold_char
                (fun d st0 out0 hd => go_char fuel d st0 out0 hd) _ _ _ hfold).2
              obtain ⟨st3, res3⟩ := out3
              cases res3 with
              | error e3 =>
                cases h
                intro hcond dp hdp q hq ns hns c hc
                rcases hcond with hik | ⟨pl, n, heq⟩
                · simp [Except.isOk, Except.toBool] at hik
                · exact absurd heq (hne pl n)
              | ok rs3 =>
                cases h
                intro _ dp hdp q hq ns hns c hc
                obtain ⟨dpc, hvc, hpc, _, _, _, _⟩ := (childrenFold_char
                  (fun d st0 out0 hd => go_char fuel d st0 out0 hd) _ _ _ hfold).1
                have hvc2 : st3.visited
                    = (st.visited ++ [buildKey p]) ++ dpc.map buildKey := hvc
                have hpc2 : st3.processed = (st.processed ++ [p]) ++ dpc := hpc
                have hdp0 : st.processed ++ ([p] ++ dpc) = st.processed ++ dp := by
                  rw [← List.append_assoc, ← hpc2]
                  exact hdp
                have hdpe : [p] ++ dpc = dp := List.append_cancel_left hdp0
                rw [← hdpe] at hq
                rcases List.mem_append.mp hq with hqp | hqc
                · rcases List.mem_cons.mp hqp with rfl | h0
                  · rw [hf] at hns
                    cases hns
                    exact childrenFold_covers _ _ _ _ hfold c hc
                  · cases h0
                · exact childrenFold_links
                    (fun d st0 out0 hd => ih d st0 out0 hd)
                    _ _ _ _ hfold dpc hpc q hqc ns hns c hc

/-! ### Lemmas about the joined/split path representation -/

theorem joinSlash_singleton (x : Chars) : joinSlash [x] = x := by
  simp [joinSlash]

theorem joinSlash_cons (x : Chars) (ys : List Chars) (h : ys ≠ []) :
    joinSlash (x :: ys) = x ++ '/' :: joinSlash ys := by
  cases ys with
  | nil => exact absurd rfl h
  | cons y t => rfl

theorem joinSlash_cons_cons (c : Char) (cs : Chars) (rp : List Chars) :
    joinSlash ((c :: cs) :: rp) = c :: joinSlash (cs :: rp) := by
  cases rp <;> rfl

theorem joinSlash_append (xs ys : List Chars) (hx : xs ≠ []) (hy : ys ≠ []) :
    joinSlash (xs ++ ys) = joinSlash xs ++ '/' :: joinSlash ys := by
  induction xs with
  | nil => exact absurd rfl hx
  | cons x t ih =>
    cases t with
    | nil =>
      rw [List.singleton_append, joinSlash_cons x ys hy, joinSlash_singleton]
    | cons x2 t2 =>
      rw [List.cons_append, joinSlash_cons x ((x2 :: t2) ++ ys) (by simp),
        joinSlash_cons x (x2 :: t2) (by simp), ih (by simp)]
      simp

theorem splitOnSlash_no_slash (w : Chars) (h : ('/' : Char) ∉ w) :
    splitOnSlash w = [w] := by
  induction w with
  | nil => rfl
  | cons c t ih =>
    have hc : ¬ (c = '/') := fun he => h (he ▸ List.mem_cons_self c t)
    unfold splitOnSlash
    rw [if_neg hc, ih (fun hm => h (List.mem_cons_of_mem c hm))]

theorem splitOnSlash_word (w x : Chars) (h : ('/' : Char) ∉ w) :
    splitOnSlash (w ++ '/' :: x) = w :: splitOnSlash x := by
  induction w with
  | nil =>
    rw [List.nil_append]
    conv_lhs => rw [splitOnSlash]
    rw [if_pos rfl]
  | cons c t ih =>
    have hc : ¬ (c = '/') := fun he => h (he ▸ List.mem_cons_self c t)
    rw [List.cons_append]
    conv_lhs => rw [splitOnSlash]
    rw [if_neg hc, ih (fun hm => h (List.mem_cons_of_mem c hm))]

theorem split_join (parts : List Chars) (hne : parts ≠ [])
    (hsf : ∀ w ∈ parts, ('/' : Char) ∉ w) :
    splitOnSlash (joinSlash parts) = parts := by
  induction parts with
  | nil => exact absurd rfl hne
  | cons w t ih =>
    cases t with
    | nil =>
      rw [joinSlash_singleton]
      exact splitOnSlash_no_slash w (hsf w (by simp))
    | cons w2 t2 =>
      rw [joinSlash_cons w (w2 :: t2) (by simp),
        splitOnSlash_word w _ (hsf w (by simp)),
        ih (by simp) (fun u hu => hsf u (by simp [hu]))]

/-! ### Decimal representation of the build number -/

theorem digitRun_of_all {l : Chars} (h : l.all isDigitChar = true) :
    digitRun l = l := by
  induction l with
  | nil => rfl
  | cons c t ih =>
    simp only [List.all_cons, Bool.and_eq_true] at h
    unfold digitRun List.takeWhile
    rw [h.1]
    have := ih h.2
    unfold digitRun at this
    rw [this]

theorem natDigitsAux_all (fuel n : Nat) :
    (natDigitsAux fuel n).all isDigitChar = true := by
  induction fuel generalizing n with
  | zero => rfl
  | succ fuel ih =>
    unfold natDigitsAux
    split
    · next h =>
      have h10 : n < 10 := h
      simp only [List.all_cons, List.all_nil, Bool.and_true]
      interval_cases n <;> decide
    · next h =>
      rw [List.all_append, ih (n / 10)]
      simp only [List.all_cons, List.all_nil, Bool.and_true, Bool.true_and]
      have h10 : n % 10 < 10 := Nat.mod_lt _ (by omega)
      set m := n % 10 with hm
      interval_cases m <;> decide

theorem natToChars_all (n : Nat) : (natToChars n).all isDigitChar = true :=
  natDigitsAux_all (n + 1) n

theorem natDigitsAux_ne_nil (fuel n : Nat) (h : 0 < fuel) :
    natDigitsAux fuel n ≠ [] := by
  cases fuel with
  | zero => omega
  | succ fuel =>
    unfold natDigitsAux
    split
    · simp
    · simp

theorem natToChars_ne_nil (n : Nat) : natToChars n ≠ [] :=
  natDigitsAux_ne_nil (n + 1) n (by omega)

theorem ofNat_digit_toNat (n : Nat) (h : n < 10) :
    (Char.ofNat (48 + n)).toNat = 48 + n := by
  interval_cases n <;> decide

theorem parseDecAux (fuel : Nat) :
    ∀ n, n < fuel → ∀ a : Nat,
      (natDigitsAux fuel n).foldl (fun a c => 10 * a + (c.toNat - 48)) a
        = a * 10 ^ (natDigitsAux fuel n).length + n := by
  induction fuel with
  | zero => intro n h; omega
  | succ fuel ih =>
    intro n h a
    unfold natDigitsAux
    split
    · next h10 =>
      simp only [List.foldl_cons, List.foldl_nil, List.length_cons,
        List.length_nil, pow_one, ofNat_digit_toNat n h10]
      omega
    · next h10 =>
      have hd : n / 10 < fuel := by
        have := Nat.div_lt_self (by omega : 0 < n) (by omega : 1 < 10)
        omega
      rw [List.foldl_append, ih (n / 10) hd a]
      simp only [List.foldl_cons, List.foldl_nil, List.length_append,
        List.length_cons, List.length_nil,
        ofNat_digit_toNat (n % 10) (Nat.mod_lt _ (by omega))]
      rw [pow_succ]
      have : 10 * (a * 10 ^ (natDigitsAux fuel (n / 10)).length + n / 10)
          + (48 + n % 10 - 48)
          = a * (10 ^ (natDigitsAux fuel (n / 10)).length * 10)
            + (10 * (n / 10) + n % 10) := by ring_nf; omega
      rw [this, Nat.div_add_mod]

theorem parseDec_natToChars (n : Nat) : parseDec (natToChars n) = n := by
  unfold parseDec natToChars
  rw [parseDecAux (n + 1) n (by omega) 0]
  simp

theorem no_slash_of_digits {l : Chars} (h : l.all isDigitChar = true) :
    ('/' : Char) ∉ l := by
  intro hm
  have := (List.all_eq_true.mp h) '/' hm
  exact absurd this (by decide)

theorem ne_of_digits {l : Chars} (lit : Chars) (h : l.all isDigitChar = true)
    (hlit : lit.all isDigitChar = false) : l ≠ lit := by
  intro he
  rw [he] at h
  rw [h] at hlit
  cases hlit

theorem no_slash_of_safe {l : Chars} (h : l.all isSafeChar = true) :
    ('/' : Char) ∉ l := by
  intro hm
  have := (List.all_eq_true.mp h) '/' hm
  exact absurd this (by decide)

/-! ### Percent-encoding round-trip on safe segments -/

theorem char_toNat_lt (c : Char) : c.toNat < 0x110000 := by
  rcases c.valid with h | ⟨h1, h2⟩
  · exact Nat.lt_trans h (by norm_num)
  · exact h2

theorem utf8Bytes_lt {m : Nat} (hm : m < 0x110000) : ∀ b ∈ utf8Bytes m, b < 256 := by
  intro b hb
  unfold utf8Bytes at hb
  split at hb
  · next h =>
    simp only [List.mem_singleton] at hb
    omega
  · split at hb
    · next h1 h2 =>
      have hd : m / 64 < 32 := Nat.div_lt_of_lt_mul (by omega)
      have hm64 : m % 64 < 64 := Nat.mod_lt _ (by omega)
      simp only [List.mem_cons, List.not_mem_nil, or_false] at hb
      rcases hb with rfl | rfl <;> omega
    · split at hb
      · next h1 h2 h3 =>
        have hd : m / 4096 < 16 := Nat.div_lt_of_lt_mul (by omega)
        have h64 : m / 64 % 64 < 64 := Nat.mod_lt _ (by omega)
        have hm64 : m % 64 < 64 := Nat.mod_lt _ (by omega)
        simp only [List.mem_cons, List.not_mem_nil, or_false] at hb
        rcases hb with rfl | rfl | rfl <;> omega
      · next h1 h2 h3 =>
        have hd : m / 262144 < 5 := Nat.div_lt_of_lt_mul (by omega)
        have h4096 : m / 4096 % 64 < 64 := Nat.mod_lt _ (by omega)
        have h64 : m / 64 % 64 < 64 := Nat.mod_lt _ (by omega)
        have hm64 : m % 64 < 64 := Nat.mod_lt _ (by omega)
        simp only [List.mem_cons, List.not_mem_nil, or_false] at hb
        rcases hb with rfl | rfl | rfl | rfl <;> omega

theorem utf8Bytes_ne_nil (m : Nat) : utf8Bytes m ≠ [] := by
  unfold utf8Bytes
  split
  · simp
  · split
    · simp
    · split <;> simp

theorem hexDigit_ne_slash {n : Nat} (h : n < 16) : hexDigit n ≠ '/' := by
  interval_cases n <;> decide

theorem enc_no_slash (s : Chars) : ('/' : Char) ∉ encodeURIComponent s := by
  intro hm
  unfold encodeURIComponent at hm
  obtain ⟨c, hc, hmem⟩ := List.mem_flatMap.mp hm
  by_cases hu : isUnreserved c = true
  · rw [if_pos hu] at hmem
    simp only [List.mem_singleton] at hmem
    rw [← hmem] at hu
    exact absurd hu (by decide)
  · rw [if_neg hu] at hmem
    obtain ⟨b, hb, hmem2⟩ := List.mem_flatMap.mp hmem
    have hblt : b < 256 := utf8Bytes_lt (char_toNat_lt c) b hb
    rcases List.mem_cons.mp hmem2 with he | hmem3
    · exact absurd he (by decide)
    · unfold hexByte at hmem3
      rcases List.mem_cons.mp hmem3 with he | hmem4
      · exact absurd he.symm (hexDigit_ne_slash (Nat.div_lt_of_lt_mul (by omega)))
      · rcases List.mem_cons.mp hmem4 with he | h0
        · exact absurd he.symm (hexDigit_ne_slash (Nat.mod_lt _ (by omega)))
        · cases h0

theorem enc_ne_nil {s : Chars} (h : s ≠ []) : encodeURIComponent s ≠ [] := by
  cases s with
  | nil => exact absurd rfl h
  | cons c t =>
    unfold encodeURIComponent
    rw [List.flatMap_cons]
    intro he
    rcases List.append_eq_nil.mp he with ⟨h1, _⟩
    by_cases hu : isUnreserved c = true
    · rw [if_pos hu] at h1
      cases h1
    · rw [if_neg hu] at h1
      cases hub : utf8Bytes c.toNat with
      | nil => exact utf8Bytes_ne_nil _ hub
      | cons b bs =>
        rw [hub, List.flatMap_cons, List.cons_append] at h1
        cases h1

theorem enc_unres_id : ∀ (s : Chars), (∀ c ∈ s, isUnreserved c = true) →
    encodeURIComponent s = s := by
  intro s
  induction s with
  | nil => intro _; rfl
  | cons c t ih =>
    intro h
    unfold encodeURIComponent
    rw [List.flatMap_cons, if_pos (h c (by simp)), List.singleton_append]
    have := ih (fun d hd => h d (by simp [hd]))
    unfold encodeURIComponent at this
    rw [this]

theorem pct_mem_enc {s : Chars} {c : Char} (hc : c ∈ s)
    (hu : isUnreserved c = false) : ('%' : Char) ∈ encodeURIComponent s := by
  unfold encodeURIComponent
  refine List.mem_flatMap.mpr ⟨c, hc, ?_⟩
  rw [if_neg (by rw [hu]; exact Bool.false_ne_true)]
  cases hub : utf8Bytes c.toNat with
  | nil => exact absurd hub (utf8Bytes_ne_nil _)
  | cons b bs =>
    rw [List.flatMap_cons]
    exact List.mem_append.mpr (.inl (by simp))

theorem enc_ne_lit {s lit : Chars} (hp : ('%' : Char) ∉ lit) (hne : s ≠ lit) :
    encodeURIComponent s ≠ lit := by
  by_cases hall : ∀ c ∈ s, isUnreserved c = true
  · rw [enc_unres_id s hall]
    exact hne
  · push_neg at hall
    obtain ⟨c, hc, hcu⟩ := hall
    have hcf : isUnreserved c = false := by
      cases h0 : isUnreserved c
      · rfl
      · exact absurd h0 hcu
    intro he
    exact hp (he ▸ pct_mem_enc hc hcf)

theorem safe_space {c : Char} (hs : isSafeChar c = true)
    (hu : isUnreserved c = false) : c = ' ' := by
  unfold isSafeChar at hs
  unfold isUnreserved at hu
  simp only [Bool.or_eq_true, Bool.and_eq_true, decide_eq_true_eq] at hs
  simp only [Bool.or_eq_false_iff, Bool.and_eq_false_iff,
    decide_eq_false_iff_not] at hu
  tauto

theorem uriDecode_cons_plain {c : Char} (hc : c ≠ '%') (rest : Chars) :
    uriDecodeAux none (c :: rest)
      = match uriDecodeAux none rest with
        | some out => some (c :: out)
        | none => none := by
  conv_lhs => unfold uriDecodeAux
  split
  · next h1 h2 r1 heq =>
    exfalso
    injection heq with he _
    exact hc he
  · next v heq _ => cases heq
  · next c2 r2 _ heq1 heq2 =>
    injection heq2 with he1 he2
    subst he1
    subst he2
    rw [if_neg hc]
  · next _ heq => cases heq

theorem dec_enc : ∀ (s : Chars), s.all isSafeChar = true →
    decodeURIComponent (encodeURIComponent s) = some s := by
  intro s
  induction s with
  | nil => intro _; rfl
  | cons c t ih =>
    intro h
    simp only [List.all_cons, Bool.and_eq_true] at h
    by_cases hu : isUnreserved c = true
    · have henc : encodeURIComponent (c :: t) = c :: encodeURIComponent t := by
        unfold encodeURIComponent
        rw [List.flatMap_cons, if_pos hu, List.singleton_append]
      have hcp : c ≠ '%' := fun he => by
        rw [he] at hu
        exact absurd hu (by decide)
      unfold decodeURIComponent
      rw [henc, uriDecode_cons_plain hcp]
      have := ih h.2
      unfold decodeURIComponent at this
      rw [this]
    · have hsp : c = ' ' := safe_space h.1 (by
        cases h2 : isUnreserved c
        · rfl
        · exact absurd h2 hu)
      subst hsp
      have henc : encodeURIComponent (' ' :: t)
          = '%' :: '2' :: '0' :: encodeURIComponent t := by
        unfold encodeURIComponent
        rw [List.flatMap_cons]
        rfl
      unfold decodeURIComponent
      rw [henc]
      have hstep : uriDecodeAux none ('%' :: '2' :: '0' :: encodeURIComponent t)
          = match uriDecodeAux none (encodeURIComponent t) with
            | some out => some (' ' :: out)
            | none => none := rfl
      rw [hstep]
      have := ih h.2
      unfold decodeURIComponent at this
      rw [this]

theorem decodeSegment_enc {s : Chars} (h : s.all isSafeChar = true) :
    decodeSegment (encodeURIComponent s) = s := by
  unfold decodeSegment
  rw [dec_enc s h]
  rfl

/-! ### Leftmost-match positions of the URL regexes on slash-joined words -/

theorem isPrefixOf_cons_false {a c : Char} {l t : Chars} (h : a ≠ c) :
    (a :: l).isPrefixOf (c :: t) = false := by
  show (a == c && l.isPrefixOf t) = false
  rw [beq_eq_false_iff_ne.mpr h]
  rfl

theorem prefix_boundary (lit Y : Chars) :
    ('/' :: lit).isPrefixOf ('/' :: Y) = lit.isPrefixOf Y := by
  show (('/' : Char) == '/' && lit.isPrefixOf Y) = lit.isPrefixOf Y
  rw [beq_self_eq_true]
  exact Bool.true_and _

theorem prefix_slash_word {lit w : Chars} (hw : ('/' : Char) ∉ w) :
    (lit ++ ['/']).isPrefixOf w = false := by
  cases hp : (lit ++ ['/']).isPrefixOf w
  · rfl
  · exfalso
    have hpre : lit ++ ['/'] <+: w := List.isPrefixOf_iff_prefix.mp hp
    exact hw (hpre.subset (by simp))

theorem prefix_slash_ne :
    ∀ (lit w x : Chars), ('/' : Char) ∉ lit → ('/' : Char) ∉ w → w ≠ lit →
      (lit ++ ['/']).isPrefixOf (w ++ '/' :: x) = false := by
  intro lit
  induction lit with
  | nil =>
    intro w x _ hw hne
    cases w with
    | nil => exact absurd rfl hne
    | cons c t =>
      rw [List.nil_append, List.cons_append]
      exact isPrefixOf_cons_false
        (fun he => hw (by rw [← he]; exact List.mem_cons_self _ _))
  | cons a lt ih =>
    intro w x hlit hw hne
    cases w with
    | nil =>
      rw [List.cons_append, List.nil_append]
      exact isPrefixOf_cons_false
        (fun he => hlit (by rw [← he]; exact List.mem_cons_self _ _))
    | cons c t =>
      rw [List.cons_append, List.cons_append]
      by_cases hac : a = c
      · subst hac
        show (a == a && (lt ++ ['/']).isPrefixOf (t ++ '/' :: x)) = false
        rw [beq_self_eq_true, Bool.true_and]
        exact ih t x (fun hm => hlit (List.mem_cons_of_mem a hm))
          (fun hm => hw (List.mem_cons_of_mem a hm))
          (fun he => hne (by rw [he]))
      · exact isPrefixOf_cons_false hac

theorem isPrefixOf_self_append :
    ∀ (l : Chars) (a : Char) (t : Chars), (l ++ [a]).isPrefixOf (l ++ a :: t) = true := by
  intro l
  induction l with
  | nil =>
    intro a t
    show (a == a && List.isPrefixOf [] t) = true
    rw [beq_self_eq_true]
    simp [List.isPrefixOf]
  | cons x xs ih =>
    intro a t
    rw [List.cons_append, List.cons_append]
    show (x == x && (xs ++ [a]).isPrefixOf (xs ++ a :: t)) = true
    rw [beq_self_eq_true, ih a t]
    simp

theorem scanJob_skip {c : Char} {t : Chars}
    (h : "/job/".data.isPrefixOf (c :: t) = false) :
    scanJob (c :: t) = scanJob t := by
  conv_lhs => unfold scanJob
  rw [h]
  simp

theorem scanPipelineUrl_skip {c : Char} {t : Chars}
    (h : "/pipelines/".data.isPrefixOf (c :: t) = false) :
    scanPipelineUrl (c :: t) = scanPipelineUrl t := by
  conv_lhs => unfold scanPipelineUrl
  rw [h]
  simp

theorem scanJob_words :
    ∀ (parts : List Chars), (∀ w ∈ parts, ('/' : Char) ∉ w) →
      "job".data ∉ parts → scanJob (joinSlash parts) = none := by
  intro parts
  induction parts with
  | nil => intro _ _; rfl
  | cons w rp ih =>
    intro hsf hnj
    have hrp : scanJob (joinSlash rp) = none :=
      ih (fun u hu => hsf u (List.mem_cons_of_mem w hu))
        (fun hm => hnj (List.mem_cons_of_mem w hm))
    have hbound : scanJob (joinSlash ([] :: rp)) = none := by
      cases rp with
      | nil => rfl
      | cons w2 rp2 =>
        rw [joinSlash_cons [] (w2 :: rp2) (by simp), List.nil_append]
        have hpref : ("/job/".data.isPrefixOf ('/' :: joinSlash (w2 :: rp2))) = false := by
          show (('/' :: ("job".data ++ ['/'])).isPrefixOf
            ('/' :: joinSlash (w2 :: rp2))) = false
          rw [prefix_boundary]
          cases rp2 with
          | nil =>
            rw [joinSlash_singleton]
            exact prefix_slash_word (hsf w2 (by simp))
          | cons w3 rp3 =>
            rw [joinSlash_cons w2 (w3 :: rp3) (by simp)]
            exact prefix_slash_ne "job".data w2 _ (by decide)
              (hsf w2 (by simp))
              (fun he => hnj (by rw [← he]; simp))
        rw [scanJob_skip hpref]
        exact hrp
    have hword : ∀ w', ('/' : Char) ∉ w' → scanJob (joinSlash (w' :: rp)) = none := by
      intro w'
      induction w' with
      | nil => intro _; exact hbound
      | cons c cs ihc =>
        intro hw
        rw [joinSlash_cons_cons]
        have hc : ('/' : Char) ≠ c :=
          fun he => hw (by rw [← he]; exact List.mem_cons_self _ _)
        have hpref : ("/job/".data.isPrefixOf (c :: joinSlash (cs :: rp))) = false := by
          show (('/' :: "job/".data).isPrefixOf (c :: joinSlash (cs :: rp))) = false
          exact isPrefixOf_cons_false hc
        rw [scanJob_skip hpref]
        exact ihc (fun hm => hw (List.mem_cons_of_mem c hm))
    exact hword w (hsf w (List.mem_cons_self w rp))

theorem scanPipelineUrl_reach :
    ∀ (pre tail : List Chars) (r : Chars × Chars),
      (∀ w ∈ pre, ('/' : Char) ∉ w ∧ w ≠ "pipelines".data) →
      pre ≠ [] → tail ≠ [] →
      pipelineUrlAttempt (joinSlash tail) = some r →
      scanPipelineUrl (joinSlash (pre ++ "pipelines".data :: tail)) = some r := by
  intro pre
  induction pre with
  | nil => intro tail r _ hne _ _; exact absurd rfl hne
  | cons w rp ih =>
    intro tail r hpre hne htail hatt
    have hword : ∀ w', ('/' : Char) ∉ w' →
        scanPipelineUrl (joinSlash ((w' :: rp) ++ "pipelines".data :: tail)) = some r := by
      intro w'
      induction w' with
      | nil =>
        intro _
        rw [List.cons_append,
          joinSlash_cons [] (rp ++ "pipelines".data :: tail) (by simp),
          List.nil_append]
        cases rp with
        | nil =>
          rw [List.nil_append, joinSlash_cons "pipelines".data tail htail]
          conv_lhs => unfold scanPipelineUrl
          have hp : ("/pipelines/".data.isPrefixOf
              ('/' :: ("pipelines".data ++ '/' :: joinSlash tail))) = true := by
            show (('/' :: ("pipelines".data ++ ['/'])).isPrefixOf
              ('/' :: ("pipelines".data ++ '/' :: joinSlash tail))) = true
            rw [prefix_boundary]
            exact isPrefixOf_self_append "pipelines".data '/' (joinSlash tail)
          rw [hp]
          have hdrop : ('/' :: ("pipelines".data ++ '/' :: joinSlash tail)).drop 11
              = joinSlash tail := rfl
          rw [if_pos rfl, hdrop, hatt]
        | cons w2 rp2 =>
          have hj : joinSlash ((w2 :: rp2) ++ "pipelines".data :: tail)
              = w2 ++ '/' :: joinSlash (rp2 ++ "pipelines".data :: tail) := by
            rw [List.cons_append,
              joinSlash_cons w2 (rp2 ++ "pipelines".data :: tail) (by simp)]
          rw [hj]
          have hpref : "/pipelines/".data.isPrefixOf
              ('/' :: (w2 ++ '/' :: joinSlash (rp2 ++ "pipelines".data :: tail)))
              = false := by
            show ('/' :: ("pipelines".data ++ ['/'])).isPrefixOf
              ('/' :: (w2 ++ '/' :: joinSlash (rp2 ++ "pipelines".data :: tail))) = false
            rw [prefix_boundary]
            exact prefix_slash_ne "pipelines".data w2 _ (by decide)
              (hpre w2 (by simp)).1 (hpre w2 (by simp)).2
          rw [scanPipelineUrl_skip hpref, ← hj]
          exact ih tail r (fun u hu => hpre u (by simp [hu])) (by simp) htail hatt
      | cons c cs ihc =>
        intro hw
        rw [List.cons_append, joinSlash_cons_cons]
        have hc : ('/' : Char) ≠ c :=
          fun he => hw (by rw [← he]; exact List.mem_cons_self _ _)
        have hpref : "/pipelines/".data.isPrefixOf
            (c :: joinSlash (cs :: (rp ++ "pipelines".data :: tail))) = false := by
          show ('/' :: "pipelines/".data).isPrefixOf
            (c :: joinSlash (cs :: (rp ++ "pipelines".data :: tail))) = false
          exact isPrefixOf_cons_false hc
        rw [scanPipelineUrl_skip hpref]
        have := ihc (fun hm => hw (List.mem_cons_of_mem c hm))
        rw [List.cons_append] at this
        exact this
    exact hword w (hpre w (by simp)).1

/-! ### The greedy pipeline-URL capture on the generated API path -/

theorem runsCheck_hit {capRev : List Chars} {digits : Chars} (hcap : capRev ≠ [])
    (hdne : digits ≠ []) (hall : digits.all isDigitChar = true) (rest2 : List Chars) :
    runsCheck capRev ("runs".data :: digits :: rest2)
      = some (joinSlash capRev.reverse, digits) := by
  unfold runsCheck
  dsimp only
  have hcond : (("runs".data = "runs".data && capRev ≠ [] && digitRun digits ≠ []) : Bool)
      = true := by
    rw [digitRun_of_all hall]
    simp [hcap, hdne]
  rw [if_pos hcond, digitRun_of_all hall]

theorem runsCheck_miss {capRev : List Chars} {r : Chars} (hr : r ≠ "runs".data)
    (rest2 : List Chars) : runsCheck capRev (r :: rest2) = none := by
  unfold runsCheck
  cases rest2 with
  | nil => rfl
  | cons d rest3 =>
    dsimp only
    have hcond : ((r = "runs".data && capRev ≠ [] && digitRun d ≠ []) : Bool) = false := by
      simp [hr]
    rw [hcond]
    simp

theorem pipelineUrlTry_tail {digits : Chars} (hdne : digits ≠ [])
    (hall : digits.all isDigitChar = true) :
    ∀ (segs2 capRev : List Chars), capRev ≠ [] → (∀ s ∈ segs2, s ≠ []) →
      pipelineUrlTry capRev (segs2 ++ ["runs".data, digits, "nodes".data, []])
        = some (joinSlash (capRev.reverse ++ segs2), digits) := by
  have hdr : digits ≠ "runs".data := by
    intro he
    rw [he] at hall
    exact absurd hall (by decide)
  intro segs2
  induction segs2 with
  | nil =>
    intro capRev hcap _
    rw [List.nil_append]
    conv_lhs => unfold pipelineUrlTry
    rw [if_neg (by decide : ¬("runs".data = []))]
    have h1 : pipelineUrlTry ("runs".data :: capRev) [digits, "nodes".data, []] = none := by
      conv_lhs => unfold pipelineUrlTry
      rw [if_neg hdne]
      have h2 : pipelineUrlTry (digits :: "runs".data :: capRev) ["nodes".data, []]
          = none := by
        conv_lhs => unfold pipelineUrlTry
        rw [if_neg (by decide : ¬("nodes".data = []))]
        have h3 : pipelineUrlTry ("nodes".data :: digits :: "runs".data :: capRev) [[]]
            = none := by
          conv_lhs => unfold pipelineUrlTry
          rw [if_pos rfl]
          rfl
        rw [h3]
        exact runsCheck_miss (by decide) _
      rw [h2]
      exact runsCheck_miss hdr _
    rw [h1, runsCheck_hit hcap hdne hall, List.append_nil]
  | cons s srest ih =>
    intro capRev hcap hse
    rw [List.cons_append]
    conv_lhs => unfold pipelineUrlTry
    rw [if_neg (fun he => (hse s (by simp)) he),
      ih (s :: capRev) (by simp) (fun u hu => hse u (by simp [hu]))]
    have hrev : (s :: capRev).reverse ++ srest = capRev.reverse ++ s :: srest := by
      rw [List.reverse_cons, List.append_assoc]
      rfl
    rw [hrev]

theorem pipelineUrlAttempt_tail {digits : Chars} (hdne : digits ≠ [])
    (hall : digits.all isDigitChar = true)
    (e1 : Chars) (esegs : List Chars)
    (h1 : e1 ≠ []) (hes : ∀ s ∈ esegs, s ≠ [])
    (hsf1 : ('/' : Char) ∉ e1) (hsfs : ∀ s ∈ esegs, ('/' : Char) ∉ s) :
    pipelineUrlAttempt
        (joinSlash ((e1 :: esegs) ++ ["runs".data, digits, "nodes".data, []]))
      = some (joinSlash (e1 :: esegs), digits) := by
  have hparts : ∀ w ∈ (e1 :: esegs) ++ ["runs".data, digits, "nodes".data, []],
      ('/' : Char) ∉ w := by
    intro w hw
    rcases List.mem_append.mp hw with hw1 | hw2
    · rcases List.mem_cons.mp hw1 with rfl | hw3
      · exact hsf1
      · exact hsfs w hw3
    · simp only [List.mem_cons, List.not_mem_nil, or_false] at hw2
      rcases hw2 with rfl | rfl | rfl | rfl
      · decide
      · exact no_slash_of_digits hall
      · decide
      · simp
  have hs : splitOnSlash
      (joinSlash ((e1 :: esegs) ++ ["runs".data, digits, "nodes".data, []]))
      = e1 :: (esegs ++ ["runs".data, digits, "nodes".data, []]) := by
    rw [split_join _ (by simp) hparts, List.cons_append]
  unfold pipelineUrlAttempt
  rw [hs]
  dsimp only
  rw [if_neg h1, pipelineUrlTry_tail hdne hall esegs [e1] (by simp) hes]
  simp

/-! ### Single-pass replacement is the identity without an occurrence -/

theorem replaceAll_cons_skip {pat rep : Chars} {c : Char} {X : Chars}
    (h : pat.isPrefixOf (c :: X) = false) :
    replaceAll pat rep (c :: X) = c :: replaceAll pat rep X := by
  unfold replaceAll
  show replaceAllAux pat rep (X.length + 1) (c :: X)
    = c :: replaceAllAux pat rep X.length X
  conv_lhs => unfold replaceAllAux
  dsimp only
  rw [h, Bool.and_false]
  simp

theorem replaceAll_join_id :
    ∀ (parts : List Chars), (∀ w ∈ parts, ('/' : Char) ∉ w) →
      "pipelines".data ∉ parts →
      replaceAll "/pipelines/".data ['/'] (joinSlash parts) = joinSlash parts := by
  intro parts
  induction parts with
  | nil => intro _ _; rfl
  | cons w rp ih =>
    intro hsf hnp
    have hrp := ih (fun u hu => hsf u (List.mem_cons_of_mem w hu))
      (fun hm => hnp (List.mem_cons_of_mem w hm))
    have hbound : replaceAll "/pipelines/".data ['/'] (joinSlash ([] :: rp))
        = joinSlash ([] :: rp) := by
      cases rp with
      | nil => rfl
      | cons w2 rp2 =>
        rw [joinSlash_cons [] (w2 :: rp2) (by simp), List.nil_append]
        have hpref : "/pipelines/".data.isPrefixOf ('/' :: joinSlash (w2 :: rp2))
            = false := by
          show ('/' :: ("pipelines".data ++ ['/'])).isPrefixOf
            ('/' :: joinSlash (w2 :: rp2)) = false
          rw [prefix_boundary]
          cases rp2 with
          | nil =>
            rw [joinSlash_singleton]
            exact prefix_slash_word (hsf w2 (by simp))
          | cons w3 rp3 =>
            rw [joinSlash_cons w2 (w3 :: rp3) (by simp)]
            exact prefix_slash_ne "pipelines".data w2 _ (by decide)
              (hsf w2 (by simp)) (fun he => hnp (by rw [← he]; simp))
        rw [replaceAll_cons_skip hpref, hrp]
    have hword : ∀ w', ('/' : Char) ∉ w' →
        replaceAll "/pipelines/".data ['/'] (joinSlash (w' :: rp))
          = joinSlash (w' :: rp) := by
      intro w'
      induction w' with
      | nil => intro _; exact hbound
      | cons c cs ihc =>
        intro hw
        rw [joinSlash_cons_cons]
        have hc : ('/' : Char) ≠ c :=
          fun he => hw (by rw [← he]; exact List.mem_cons_self _ _)
        have hpref : "/pipelines/".data.isPrefixOf (c :: joinSlash (cs :: rp))
            = false := by
          show ('/' :: "pipelines/".data).isPrefixOf (c :: joinSlash (cs :: rp)) = false
          exact isPrefixOf_cons_false hc
        rw [replaceAll_cons_skip hpref,
          ihc (fun hm => hw (List.mem_cons_of_mem c hm))]
    exact hword w (hsf w (List.mem_cons_self w rp))

/-! ## Claim theorems -/

/-- C5: `parseLocator` and `parseNodeUrl` never return a coordinate whose
path fails `validatePipelinePath` — any input whose (percent-decoded) path
portion contains a `.` or `..` segment or a character outside the safe
allow-list is rejected — and every failure is an `InvalidLocatorError`
carrying the original input. -/
theorem C5_locator_validation :
    ∀ s : String,
      (∀ c, parseLocator s = .ok c → validatePipelinePath c.path.data = true) ∧
      (∀ e, parseLocator s = .error e → e.locator = s) ∧
      (∀ r, parseNodeUrl s = .ok r → validatePipelinePath r.pipelineInfo.path.data = true) ∧
      (∀ e, parseNodeUrl s = .error e → e.locator = s) := by
  intro s
  refine ⟨fun c h => ?_, fun e h => ?_, fun r h => ?_, fun e h => ?_⟩
  · unfold parseLocator at h
    repeat' split at h
    all_goals first | exact finishBranch_ok h | cases h
  · unfold parseLocator at h
    repeat' split at h
    all_goals first | exact finishBranch_err h | (cases h; rfl)
  · unfold parseNodeUrl at h
    repeat' split at h
    all_goals first | exact finishNodeBranch_ok h | cases h
  · unfold parseNodeUrl at h
    repeat' split at h
    all_goals first | exact finishNodeBranch_err h | (cases h; rfl)

/-- C5 witness: a concrete accepted locator and a concrete rejected one. -/
theorem C5_locator_validation_witness :
    parseLocator "pipelines/Catalog/main/885" = .ok ⟨"pipelines/Catalog/main", 885⟩ ∧
    validatePipelinePath ("pipelines/Catalog/main" : String).data = true ∧
    parseLocator "pipelines/../etc/885" =
      .error ⟨invalidCharsMsg, "pipelines/../etc/885"⟩ := by
  have h1 : parseLocator "pipelines/Catalog/main/885" =
      .ok ⟨"pipelines/Catalog/main", 885⟩ := by decide
  exact ⟨h1, (C5_locator_validation "pipelines/Catalog/main/885").1 _ h1, by decide⟩

/-- C10: the resolvers are total — a malformed percent-escape does not
crash decoding: a segment whose `decodeURIComponent` throws is kept
verbatim, every input yields either a coordinate or an `InvalidLocatorError`,
and in particular a malformed escape (whose `%` is outside the allow-list)
is rejected with `InvalidLocator`. -/
theorem C10_total_on_malformed_escapes :
    (∀ seg : Chars, decodeURIComponent seg = none → decodeSegment seg = seg) ∧
    (∀ s : String, (∃ c, parseLocator s = .ok c) ∨ ∃ e, parseLocator s = .error e) ∧
    (∀ s : String, (∃ r, parseNodeUrl s = .ok r) ∨ ∃ e, parseNodeUrl s = .error e) ∧
    parseLocator "pipelines/foo%GG/3" =
      .error ⟨invalidCharsMsg, "pipelines/foo%GG/3"⟩ := by
  refine ⟨fun seg h => ?_, fun s => ?_, fun s => ?_, by decide⟩
  · simp [decodeSegment, h]
  · cases h : parseLocator s with
    | ok c => exact .inl ⟨c, rfl⟩
    | error e => exact .inr ⟨e, rfl⟩
  · cases h : parseNodeUrl s with
    | ok r => exact .inl ⟨r, rfl⟩
    | error e => exact .inr ⟨e, rfl⟩

/-- C10 witness: the malformed escape `%GG` fails to decode and is kept
verbatim. -/
theorem C10_total_on_malformed_escapes_witness :
    decodeURIComponent ("%GG" : String).data = none ∧
    decodeSegment ("%GG" : String).data = ("%GG" : String).data := by
  refine ⟨by decide, C10_total_on_malformed_escapes.1 _ (by decide)⟩

/-- C9 counterexample: the final `(\d+)` of PIPELINE_NODE_URL_REGEX is
unanchored, so a nodeId component `534x` containing a non-digit does not
make `parseNodeUrl` fail — it succeeds with nodeId `534`. -/
theorem C9_counterexample :
    parseNodeUrl "https://jenkins.example.com/blue/organizations/jenkins/pipelines/MyProject/main/detail/main/154928/pipeline/534x"
      = .ok ⟨⟨"pipelines/MyProject/main", 154928⟩, "534"⟩ := by decide

/-- C9 amended: `parseNodeUrl` succeeds only when the component after
`/pipeline/` starts with a decimal digit, and the returned nodeId is the
maximal leading digit run — always nonempty and all digits — while trailing
non-digit characters are accepted and ignored rather than rejected. -/
theorem C9_nodeId_digit_run :
    (∀ (s : String) (r : NodeLocator), parseNodeUrl s = .ok r →
      r.nodeId.data ≠ [] ∧ r.nodeId.data.all isDigitChar = true) ∧
    parseNodeUrl "https://jenkins.example.com/blue/organizations/jenkins/pipelines/MyProject/main/detail/main/99/pipeline/42abc"
      = .ok ⟨⟨"pipelines/MyProject/main", 99⟩, "42"⟩ ∧
    (parseNodeUrl "https://jenkins.example.com/blue/organizations/jenkins/pipelines/MyProject/main/detail/main/99/pipeline/xyz").isOk
      = false := by
  refine ⟨fun s r h => ?_, by decide, by decide⟩
  unfold parseNodeUrl at h
  split at h
  · cases h
  next cap num nid heq =>
    have hn := scanNode_nodeId _ heq
    unfold finishNodeBranch at h
    split at h
    · cases h; exact hn
    · cases h

/-- C9 witness: a concrete node URL whose nodeId is a nonempty digit
string. -/
theorem C9_nodeId_digit_run_witness :
    ("139" : String).data ≠ [] ∧ ("139" : String).data.all isDigitChar = true :=
  C9_nodeId_digit_run.1
    "https://jenkins.example.com/blue/organizations/jenkins/pipelines/MyProject/pipelines/test-suites/pipelines/test-queue/detail/test-queue/134678/pipeline/139"
    ⟨⟨"pipelines/MyProject/test-suites/test-queue", 134678⟩, "139"⟩ (by decide)

/-- C8 counterexample: the `/pipelines/` replacement is a single
left-to-right non-overlapping pass, so a doubled `/pipelines/pipelines/`
keeps one occurrence — a pipeline whose interior segment is literally named
`pipelines` CAN be expressed in the node-URL format. -/
theorem C8_counterexample :
    parseNodeUrl "https://jenkins.example.com/blue/organizations/jenkins/pipelines/A/pipelines/pipelines/B/detail/X/5/pipeline/7"
      = .ok ⟨⟨"pipelines/A/pipelines/B", 5⟩, "7"⟩ := by decide

/-- C8 amended: in pipeline-style URLs and node URLs every `/pipelines/`
occurrence consumed by one left-to-right non-overlapping scan of the
captured path is replaced by `/` (so the nested examples resolve to
`pipelines/P/S/Q` and `pipelines/MyProject/test-suites/JS`), but overlapping
occurrences survive the single pass, so a pipeline with an interior segment
literally named `pipelines` can still be expressed by doubling the token. -/
theorem C8_pipelines_token_collapse :
    parseNodeUrl "https://jenkins.example.com/blue/organizations/jenkins/pipelines/P/pipelines/S/pipelines/Q/detail/Q/1/pipeline/9"
      = .ok ⟨⟨"pipelines/P/S/Q", 1⟩, "9"⟩ ∧
    parseLocator "https://jenkins.example.com/blue/organizations/jenkins/pipelines/MyProject/pipelines/test-suites/pipelines/JS/runs/203458"
      = .ok ⟨"pipelines/MyProject/test-suites/JS", 203458⟩ ∧
    replaceAll "/pipelines/".data ['/'] ("A/pipelines/pipelines/B".data)
      = "A/pipelines/B".data := by
  refine ⟨by decide, by decide, by decide⟩

/-- C4: the shallow `getFailureReport` does NOT map a 404 step-list failure
to `BuildNotFoundError` — `buildFailureReport` has no `mapError`, so the
client's `NetworkError` with status 404 (like every other fetch error)
reaches the caller unchanged, contradicting the claim and the operation's
own declared error union. -/
theorem C4_shallow_404_unmapped :
    getFailureReport ⟨[], []⟩ "https://jenkins.example.com" "pipelines/Catalog/main/885" false
      = .error (.networkError (some 404)) ∧
    (∀ (e : ClientError) (p : PipelineInfo) (inc : Bool) (baseUrl : String),
      (buildFailureReport ⟨[((p.path, p.buildNumber), .error e)], []⟩ baseUrl p inc).2
        = .error e.toJenkins) := by
  refine ⟨by decide, fun e p inc baseUrl => ?_⟩
  unfold buildFailureReport fetchStepListRaw
  simp [List.find?]

/-- C3 counterexample: an `AuthenticationError` from a linked sub-build is
not swallowed — the whole recursive traversal fails instead of succeeding
with the sub-build contributing an empty list. -/
theorem C3_counterexample :
    buildFailureReportRec cxAuthFetcher "https://jenkins.example.com" false 5
        ⟨"pipelines/A", 1⟩ emptyTrace
      = some (⟨["pipelines/A/1", "pipelines/B/2"],
               [⟨"pipelines/A", 1⟩, ⟨"pipelines/B", 2⟩], []⟩,
          .error .authenticationError) := by decide

/-- C3 amended: during sub-build recursion only `BuildNotFoundError` (the
mapped 404) is swallowed; any other fetch-error kind from a sub-build —
authentication, transport, or schema-validation — aborts the whole
traversal with that error. -/
theorem C3_only_notfound_swallowed :
    ∀ (f : Fetcher) (baseUrl : String) (inc : Bool) (p c : PipelineInfo)
      (ns : List BuildNode) (st : TraceState) (fuel : Nat) (e : ClientError),
      st.visited.contains (buildKey p) = false →
      st.visited.contains (buildKey c) = false →
      buildKey c ≠ buildKey p →
      fetchStepListRaw f p = .ok ns →
      failedOf ns = [] →
      extractSubBuildLinks ns = [c] →
      fetchStepListRaw f c = .error e →
      e ≠ .network (some 404) →
      ∃ st', buildFailureReportRec f baseUrl inc (fuel + 2) p st
          = some (st', .error e.toJenkins) := by
  intro f baseUrl inc p c ns st fuel e hpv hcv hck hfp hfail hlinks hfc he
  have hcv2 : (st.visited ++ [buildKey p]).contains (buildKey c) = false := by
    rw [contains_append, hcv]
    simp only [Bool.false_or, List.contains_cons, List.contains_nil, Bool.or_false]
    simpa using hck
  have hchild := @go_step_fetch_error f baseUrl inc fuel c
    ⟨st.visited ++ [buildKey p], st.processed ++ [p], st.consoleLog ++ []⟩
    e hcv2 hfc
  rw [map404_eq_toJenkins he] at hchild
  dsimp only at hchild
  refine ⟨⟨st.visited ++ [buildKey p] ++ [buildKey c], st.processed ++ [p] ++ [c],
           st.consoleLog ++ []⟩, ?_⟩
  rw [go_step_ok hpv hfp, hfail, hlinks]
  have hcf := childrenFold_single_error (toJenkins_ne_bnf e) hchild
  simp only [currentFailuresAux]
  rw [hcf]

/-- C3 witness: a concrete traversal where the sub-build's authentication
error aborts the whole tree. -/
theorem C3_only_notfound_swallowed_witness :
    ∃ st', buildFailureReportRec cxAuthFetcher2 "https://jenkins.example.com" false (3 + 2)
        ⟨"pipelines/A", 1⟩ emptyTrace
      = some (st', .error ClientError.auth.toJenkins) :=
  C3_only_notfound_swallowed cxAuthFetcher2 "https://jenkins.example.com" false
    ⟨"pipelines/A", 1⟩ ⟨"pipelines/B", 2⟩ [cxLinkOnlyNode] emptyTrace 3 .auth
    (by decide) (by decide) (by decide) (by decide) (by decide) (by decide)
    (by decide) (by decide)

/-- C2: when the parent's step list is reachable, a linked sub-build whose
step-list fetch answers 404 contributes zero records and surfaces no error:
the recursive report still succeeds with the parent's own failure records
followed by the records of the other (healthy) sub-builds. -/
theorem C2_missing_subbuild_skipped :
    ∀ (f : Fetcher) (baseUrl : String) (inc : Bool) (p : PipelineInfo)
      (ns : List BuildNode) (st : TraceState) (cur : List FailureReport) (fuel : Nat),
      st.visited.contains (buildKey p) = false →
      fetchStepListRaw f p = .ok ns →
      (currentFailuresAux f baseUrl inc p (failedOf ns)).2 = .ok cur →
      (∀ c ∈ extractSubBuildLinks ns,
        (fetchStepListRaw f c = .error (.network (some 404)) ∨
          (∃ nsc, fetchStepListRaw f c = .ok nsc ∧ extractSubBuildLinks nsc = [] ∧
            (currentFailuresAux f baseUrl inc c (failedOf nsc)).2.isOk = true)) ∧
        st.visited.contains (buildKey c) = false ∧ buildKey c ≠ buildKey p) →
      ∃ st', buildFailureReportRec f baseUrl inc (fuel + 2) p st
          = some (st', .ok (cur ++ (extractSubBuildLinks ns).flatMap (recordsOf f baseUrl inc))) := by
  intro f baseUrl inc p ns st cur fuel hpv hfp hcur hch
  obtain ⟨clog, hcc⟩ : ∃ clog,
      currentFailuresAux f baseUrl inc p (failedOf ns) = (clog, .ok cur) := by
    refine ⟨(currentFailuresAux f baseUrl inc p (failedOf ns)).1, ?_⟩
    rw [← hcur]
  obtain ⟨st', hfold, _⟩ := @childrenFold_skip_or_leaf f baseUrl inc fuel
    (extractSubBuildLinks ns)
    ⟨st.visited ++ [buildKey p], st.processed ++ [p], st.consoleLog ++ clog⟩
    (fun c hc => ⟨(hch c hc).1, by
      have h2 : buildKey c ∉ st.visited := by simpa using (hch c hc).2.1
      have h3 := (hch c hc).2.2
      show (st.visited ++ [buildKey p]).contains (buildKey c) = false
      rw [contains_append]
      simp [List.contains_cons, h2, h3]⟩)
    (extract_nodup ns)
  refine ⟨st', ?_⟩
  rw [go_step_ok hpv hfp, hcc]
  dsimp only
  rw [hfold]

/-- C2 witness: parent `pipelines/A #1` links to the pruned `pipelines/M #7`
and to the healthy `pipelines/B #2`; the traversal succeeds with the
parent's record followed by the healthy sub-build's record. -/
theorem C2_missing_subbuild_skipped_witness :
    ∃ st', buildFailureReportRec cxMixFetcher "https://jenkins.example.com" false (3 + 2)
        ⟨"pipelines/A", 1⟩ emptyTrace
      = some (st', .ok ([mkReport "https://jenkins.example.com" ⟨"pipelines/A", 1⟩ cxMixParent none]
          ++ (extractSubBuildLinks [cxMixParent]).flatMap
               (recordsOf cxMixFetcher "https://jenkins.example.com" false))) :=
  C2_missing_subbuild_skipped cxMixFetcher "https://jenkins.example.com" false
    ⟨"pipelines/A", 1⟩ [cxMixParent] emptyTrace
    [mkReport "https://jenkins.example.com" ⟨"pipelines/A", 1⟩ cxMixParent none] 3
    (by decide) (by decide) (by decide)
    (by
      intro c hc
      rw [show extractSubBuildLinks [cxMixParent]
          = [⟨"pipelines/M", 7⟩, ⟨"pipelines/B", 2⟩] from by decide] at hc
      simp only [List.mem_cons, List.not_mem_nil, or_false] at hc
      rcases hc with rfl | rfl
      · exact ⟨.inl (by decide), by decide, by decide⟩
      · exact ⟨.inr ⟨[cxLeafNode], by decide, by decide, by decide⟩, by decide, by decide⟩)

/-- C1: for every fetcher-supplied build graph — cycles and self-links
included — the recursive failure report from the empty state terminates: every
fuel above the number of candidate keys yields the same completed outcome.  In
that outcome the VisitedSet is exactly the keys of the processed coordinates,
no coordinate is processed twice, the start coordinate's key is visited, and
on success every sub-build link of every processed build is visited (so the
traversal covers everything reachable), the result is exactly the
concatenation of each processed build's failure records, every returned
record's `(pipeline, buildNumber)` key is in the VisitedSet, and each
processed build's real failures appear in the result exactly once. -/
theorem C1_traversal_invariants (f : Fetcher) (baseUrl : String)
    (inc : Bool) (p : PipelineInfo) :
    ∃ (st : TraceState) (res : Except JenkinsError (List FailureReport)),
      (∀ fuel, (universeKeys f p).length < fuel →
        buildFailureReportRec f baseUrl inc fuel p emptyTrace = some (st, res)) ∧
      st.visited = st.processed.map buildKey ∧
      st.processed.Nodup ∧
      (st.processed.map buildKey).Nodup ∧
      st.visited.contains (buildKey p) = true ∧
      (∀ rs, res = .ok rs →
        (∀ q ∈ st.processed, ∀ ns, fetchStepListRaw f q = .ok ns →
          ∀ c ∈ extractSubBuildLinks ns, st.visited.contains (buildKey c) = true) ∧
        rs = st.processed.flatMap (recordsOf f baseUrl inc) ∧
        (∀ r ∈ rs, st.visited.contains
            (r.pipeline ++ "/" ++ (⟨natToChars r.buildNumber⟩ : String)) = true) ∧
        (∀ q ∈ st.processed,
          rs.filter (fun r => r.pipeline == q.path && r.buildNumber == q.buildNumber)
            = recordsOf f baseUrl inc q)) := by
  have hU := linkClosed_universe f p
  have hp : buildKey p ∈ universeKeys f p := List.mem_cons_self _ _
  have hm0 : freshCount (universeKeys f p) emptyTrace
      < (universeKeys f p).length + 1 := by
    rw [freshCount_empty]
    exact Nat.lt_succ_self _
  have hsome : (buildFailureReportRec f baseUrl inc
      ((universeKeys f p).length + 1) p emptyTrace).isSome = true :=
    go_isSome hU ((universeKeys f p).length + 1) p emptyTrace hp hm0
  cases hrun : buildFailureReportRec f baseUrl inc
      ((universeKeys f p).length + 1) p emptyTrace with
  | none => rw [hrun] at hsome; cases hsome
  | some out =>
    obtain ⟨st, res⟩ := out
    obtain ⟨dp, hvis, hproc, hnd, _, hok, _⟩ := go_char _ p emptyTrace (st, res) hrun
    have hvis2 : st.visited = dp.map buildKey := by
      have h0 : st.visited = [] ++ dp.map buildKey := hvis
      rw [List.nil_append] at h0
      exact h0
    have hproc2 : st.processed = dp := by
      have h0 : st.processed = [] ++ dp := hproc
      rw [List.nil_append] at h0
      exact h0
    refine ⟨st, res, ?_, ?_, ?_, ?_, ?_, ?_⟩
    · intro fuel hf
      have hmf : freshCount (universeKeys f p) emptyTrace < fuel := by
        rw [freshCount_empty]
        exact hf
      rw [go_agree hU fuel ((universeKeys f p).length + 1) p emptyTrace hp hmf hm0,
        hrun]
    · rw [hvis2, hproc2]
    · rw [hproc2]
      exact List.Nodup.of_map _ hnd
    · rw [hproc2]
      exact hnd
    · exact go_adds_key _ p emptyTrace (st, res) hrun
    · intro rs hres
      have hrs2 : rs = dp.flatMap (recordsOf f baseUrl inc) := (hok rs hres).1
      refine ⟨?_, ?_, ?_, ?_⟩
      · intro q hq ns hns c hc
        exact go_links _ p emptyTrace (st, res) hrun
          (.inl (by show res.isOk = true; rw [hres]; rfl))
          st.processed (List.nil_append st.processed).symm q hq ns hns c hc
      · rw [hproc2]
        exact hrs2
      · intro r hr
        rw [hrs2] at hr
        obtain ⟨q, hq, hrq⟩ := List.mem_flatMap.mp hr
        obtain ⟨hf1, hf2⟩ := recordsOf_fields r hrq
        rw [hf1, hf2, hvis2]
        exact mem_contains_true (List.mem_map_of_mem buildKey hq)
      · intro q hq
        rw [hproc2] at hq
        rw [hrs2]
        exact flatMap_filter_pair f baseUrl inc dp q hq (nodup_pairs hnd)

/-- C7: the recursive failure report with `includeConsole = false` issues no
console-text request at all; with `includeConsole = true` and a successful
outcome, the console requests issued are exactly one per failed step of each
processed build, in traversal order, with no build processed twice. -/
theorem C7_console_calls {f : Fetcher} {baseUrl : String} {inc : Bool}
    {fuel : Nat} {p : PipelineInfo} {st : TraceState}
    {res : Except JenkinsError (List FailureReport)}
    (h : buildFailureReportRec f baseUrl inc fuel p emptyTrace = some (st, res)) :
    (inc = false → st.consoleLog = []) ∧
    (st.processed.map buildKey).Nodup ∧
    (∀ rs, res = .ok rs →
      st.consoleLog
        = if inc then st.processed.flatMap (consoleCallsOf f) else []) := by
  obtain ⟨dp, hvis, hproc, hnd, _, hok, _⟩ := go_char fuel p emptyTrace (st, res) h
  have hproc2 : st.processed = dp := by
    have h0 : st.processed = [] ++ dp := hproc
    rw [List.nil_append] at h0
    exact h0
  refine ⟨?_, ?_, ?_⟩
  · intro hinc
    subst hinc
    exact go_log_false fuel p emptyTrace (st, res) h
  · rw [hproc2]
    exact hnd
  · intro rs hres
    have hlog : st.consoleLog
        = [] ++ (if inc then dp.flatMap (consoleCallsOf f) else []) := (hok rs hres).2
    rw [List.nil_append] at hlog
    rw [hproc2, hlog]

/-- C7 witness: on the cyclic two-build server with `includeConsole = true`
the completed traversal's console requests are exactly one per failed step. -/
theorem C7_console_calls_witness :
    (true = false → cxCycleState.consoleLog = []) ∧
    (cxCycleState.processed.map buildKey).Nodup ∧
    (∀ rs, (Except.ok cxCycleRecords : Except JenkinsError (List FailureReport))
        = .ok rs →
      cxCycleState.consoleLog
        = if true then cxCycleState.processed.flatMap (consoleCallsOf cxCycleFetcher)
          else []) :=
  @C7_console_calls cxCycleFetcher "https://j" true 3 ⟨"pipelines/A", 1⟩
    cxCycleState (.ok cxCycleRecords) (by decide)

/-- C6 counterexample: the round trip is not lossless for every accepted
input.  `pipelines/A/pipelines/B/3` is accepted with path
`pipelines/A/pipelines/B`, but re-parsing the API request path built from that
coordinate collapses the interior `/pipelines/` and yields `pipelines/A/B`. -/
theorem C6_counterexample :
    parseLocator "pipelines/A/pipelines/B/3"
        = .ok ⟨"pipelines/A/pipelines/B", 3⟩ ∧
    parseLocator (buildNodesApiPath ⟨"pipelines/A/pipelines/B", 3⟩)
        = .ok ⟨"pipelines/A/B", 3⟩ ∧
    (⟨"pipelines/A/B", 3⟩ : PipelineInfo) ≠ ⟨"pipelines/A/pipelines/B", 3⟩ :=
  ⟨by decide, by decide, by decide⟩

/-- C6: amended round trip.  For every coordinate whose path is
`pipelines/` followed by nonempty safe segments (and no segment is `.`, `..`,
`pipelines` or `job`), the percent-encoded nodes API request path built from it
is accepted by `parseLocator` and resolves back to exactly that coordinate —
including segments with spaces, which travel as `%20` and decode back. -/
theorem C6_roundtrip_safe_segments (segs : List Chars) (n : Nat)
    (hne : segs ≠ [])
    (hsegs : ∀ s ∈ segs, s ≠ [] ∧ s.all isSafeChar = true ∧ s ≠ ".".data ∧
      s ≠ "..".data ∧ s ≠ "pipelines".data ∧ s ≠ "job".data) :
    parseLocator (buildNodesApiPath ⟨⟨"pipelines/".data ++ joinSlash segs⟩, n⟩)
      = .ok ⟨⟨"pipelines/".data ++ joinSlash segs⟩, n⟩ := by
  have hsf : ∀ s ∈ segs, ('/' : Char) ∉ s :=
    fun s hs => no_slash_of_safe (hsegs s hs).2.1
  have hmapne : segs.map encodeURIComponent ≠ [] := by
    cases segs with
    | nil => exact absurd rfl hne
    | cons a t => simp
  have hencsf : ∀ s ∈ segs.map encodeURIComponent, ('/' : Char) ∉ s := by
    intro s hs
    obtain ⟨a, ha, rfl⟩ := List.mem_map.mp hs
    exact enc_no_slash a
  have hencne : ∀ s ∈ segs.map encodeURIComponent, s ≠ [] := by
    intro s hs
    obtain ⟨a, ha, rfl⟩ := List.mem_map.mp hs
    exact enc_ne_nil (hsegs a ha).1
  have hdall := natToChars_all n
  have hdne := natToChars_ne_nil n
  have hURL : (buildNodesApiPath ⟨⟨"pipelines/".data ++ joinSlash segs⟩, n⟩).data
      = joinSlash ([[], "blue".data, "rest".data, "organizations".data,
          "jenkins".data] ++ "pipelines".data ::
          (segs.map encodeURIComponent ++
            ["runs".data, natToChars n, "nodes".data, []])) := by
    have h1 : (buildNodesApiPath ⟨⟨"pipelines/".data ++ joinSlash segs⟩, n⟩).data
        = "/blue/rest/organizations/jenkins/".data
          ++ encodePath ("pipelines/".data ++ joinSlash segs)
          ++ "/runs/".data ++ natToChars n ++ "/nodes/".data := rfl
    have h2 : encodePath ("pipelines/".data ++ joinSlash segs)
        = "pipelines".data ++ '/' :: joinSlash (segs.map encodeURIComponent) := by
      unfold encodePath
      rw [show ("pipelines/".data ++ joinSlash segs : Chars)
          = "pipelines".data ++ '/' :: joinSlash segs from rfl,
        splitOnSlash_word _ _ (by decide), split_join segs hne hsf, List.map_cons,
        show encodeURIComponent "pipelines".data = "pipelines".data from rfl,
        joinSlash_cons _ _ hmapne]
    rw [h1, h2]
    rw [joinSlash_append _ _ (by simp) (by simp),
      joinSlash_cons "pipelines".data _ (by simp),
      joinSlash_append (segs.map encodeURIComponent) _ hmapne (by simp),
      joinSlash_cons "runs".data _ (by simp),
      joinSlash_cons (natToChars n) _ (by simp),
      joinSlash_cons "nodes".data _ (by simp), joinSlash_singleton]
    rw [show joinSlash [[], "blue".data, "rest".data, "organizations".data,
        "jenkins".data] = "/blue/rest/organizations/jenkins".data from rfl]
    rw [show ("/blue/rest/organizations/jenkins/".data : Chars)
        = "/blue/rest/organizations/jenkins".data ++ ['/'] from rfl,
      show ("/runs/".data : Chars) = '/' :: ("runs".data ++ ['/']) from rfl,
      show ("/nodes/".data : Chars) = '/' :: ("nodes".data ++ ['/']) from rfl]
    simp [List.append_assoc]
  have hjob : scanJob
      (buildNodesApiPath ⟨⟨"pipelines/".data ++ joinSlash segs⟩, n⟩).data = none := by
    rw [hURL]
    apply scanJob_words
    · intro w hw
      rcases List.mem_append.mp hw with h5 | h6
      · simp only [List.mem_cons, List.not_mem_nil, or_false] at h5
        rcases h5 with rfl | rfl | rfl | rfl | rfl
        · simp
        · decide
        · decide
        · decide
        · decide
      · rcases List.mem_cons.mp h6 with rfl | h7
        · decide
        · rcases List.mem_append.mp h7 with h8 | h9
          · exact hencsf w h8
          · simp only [List.mem_cons, List.not_mem_nil, or_false] at h9
            rcases h9 with rfl | rfl | rfl | rfl
            · decide
            · exact no_slash_of_digits hdall
            · decide
            · simp
    · intro hm
      rcases List.mem_append.mp hm with h5 | h6
      · exact absurd h5 (by decide)
      · rcases List.mem_cons.mp h6 with he | h7
        · exact absurd he (by decide)
        · rcases List.mem_append.mp h7 with h8 | h9
          · obtain ⟨s, hs, heq⟩ := List.mem_map.mp h8
            exact enc_ne_lit (by decide) (hsegs s hs).2.2.2.2.2 heq
          · simp only [List.mem_cons, List.not_mem_nil, or_false] at h9
            rcases h9 with he | he | he | he
            · exact absurd he.symm (by decide)
            · exact ne_of_digits "job".data hdall (by decide) he.symm
            · exact absurd he.symm (by decide)
            · exact absurd he.symm (by decide)
  have hatt : pipelineUrlAttempt (joinSlash (segs.map encodeURIComponent ++
      ["runs".data, natToChars n, "nodes".data, []]))
      = some (joinSlash (segs.map encodeURIComponent), natToChars n) := by
    cases hsegs0 : segs with
    | nil => exact absurd hsegs0 hne
    | cons s1 srest =>
      rw [List.map_cons, List.cons_append]
      have := pipelineUrlAttempt_tail hdne hdall (encodeURIComponent s1)
        (srest.map encodeURIComponent)
        (enc_ne_nil (hsegs s1 (by rw [hsegs0]; simp)).1)
        (fun u hu => hencne u (by rw [hsegs0, List.map_cons]; simp [hu]))
        (enc_no_slash s1)
        (fun u hu => hencsf u (by rw [hsegs0, List.map_cons]; simp [hu]))
      rw [List.cons_append] at this
      exact this
  have hpipe : scanPipelineUrl
      (buildNodesApiPath ⟨⟨"pipelines/".data ++ joinSlash segs⟩, n⟩).data
      = some (joinSlash (segs.map encodeURIComponent), natToChars n) := by
    rw [hURL]
    apply scanPipelineUrl_reach _ _ _ ?hpre (by simp) (by simp) hatt
    case hpre =>
      intro w hw
      simp only [List.mem_cons, List.not_mem_nil, or_false] at hw
      rcases hw with rfl | rfl | rfl | rfl | rfl
      · exact ⟨by simp, by decide⟩
      · exact ⟨by decide, by decide⟩
      · exact ⟨by decide, by decide⟩
      · exact ⟨by decide, by decide⟩
      · exact ⟨by decide, by decide⟩
  have hdec : decodePath (joinSlash (segs.map encodeURIComponent)) = joinSlash segs := by
    unfold decodePath
    rw [split_join _ hmapne hencsf, List.map_map]
    have hmm : segs.map (decodeSegment ∘ encodeURIComponent) = segs := by
      have h1 : segs.map (decodeSegment ∘ encodeURIComponent) = segs.map id :=
        List.map_congr_left (fun a ha => decodeSegment_enc (hsegs a ha).2.1)
      rw [h1, List.map_id]
    rw [hmm]
  have hnp : "pipelines".data ∉ segs :=
    fun hm => (hsegs _ hm).2.2.2.2.1 rfl
  have hvalid : validatePipelinePath ("pipelines/".data ++ joinSlash segs) = true := by
    unfold validatePipelinePath
    rw [show ("pipelines/".data ++ joinSlash segs : Chars)
        = "pipelines".data ++ '/' :: joinSlash segs from rfl,
      splitOnSlash_word _ _ (by decide), split_join segs hne hsf]
    have hfil : (("pipelines".data :: segs).filter (fun s => s ≠ []))
        = "pipelines".data :: segs := by
      rw [List.filter_eq_self]
      intro a ha
      rcases List.mem_cons.mp ha with rfl | h
      · decide
      · simpa using (hsegs a h).1
    rw [hfil]
    simp only [List.all_cons, Bool.and_eq_true, decide_eq_true_eq, List.all_eq_true]
    refine ⟨⟨⟨⟨by decide, by decide⟩, by decide⟩, ?_⟩, by simp⟩
    intro s hs
    exact ⟨⟨List.all_eq_true.mp (hsegs s hs).2.1, (hsegs s hs).2.2.1⟩,
      (hsegs s hs).2.2.2.1⟩
  unfold parseLocator
  rw [hjob]
  dsimp only
  rw [hpipe]
  dsimp only
  rw [hdec, replaceAll_join_id segs hsf hnp]
  unfold finishBranch
  rw [if_pos hvalid, parseDec_natToChars]

/-- C6 witness: the coordinate `pipelines/My Project/main #885` (a safe path
with a space) round-trips exactly through its nodes API request path. -/
theorem C6_roundtrip_safe_segments_witness :
    parseLocator (buildNodesApiPath
        ⟨⟨"pipelines/".data ++ joinSlash ["My Project".data, "main".data]⟩, 885⟩)
      = .ok ⟨⟨"pipelines/".data ++ joinSlash ["My Project".data, "main".data]⟩, 885⟩ :=
  C6_roundtrip_safe_segments ["My Project".data, "main".data] 885
    (by decide) (by decide)

end JK

